/-
Verification of the gitrw repository rewriting tool.

Shallow embedding of the core algorithms (object-hash parsing, the pack
delta engine, the pack reader, the reference store, the commit serializer,
the empty-commit prune pipeline, the contributor rewrite pipeline and the
topological commit iterator) together with proofs of the specified
properties.

Bytes are modelled as natural numbers (values below 256); byte buffers as
lists of naturals.  Rust usize arithmetic is modelled with Nat, with
explicit `% 256` where u8 overflow matters.  Fallible operations return
Option; a Rust panic is modelled as `none` (or a dedicated constructor
where a panic must be distinguished from a returned error).
-/
import Mathlib

set_option maxRecDepth 8000

namespace Gitrw

/-! ### Object identifier parsing (src/shared/object_hash.rs) -/

/-- The nibble lookup table `HASH_VALUE` from src/shared/object_hash.rs,
verbatim.  Note it has only 120 entries. -/
def HASH_VALUE : List Nat :=
  [0, 0, 0, 0, 0, 0, 0, 0, 0, 0, 0, 0, 0, 0, 0, 0, 0, 0, 0, 0, 0, 0, 0, 0, 0, 0, 0, 0, 0, 0, 0, 0,
   0, 0, 0, 0, 0, 0, 0, 0, 0, 0, 0, 0, 0, 0, 0, 0, 0, 1, 2, 3, 4, 5, 6, 7, 8, 9, 10, 0, 0, 0, 0,
   0, 0, 0, 0, 0, 0, 0, 0, 0, 0, 0, 0, 0, 0, 0, 0, 0, 0, 0, 0, 0, 0, 0, 0, 0, 1, 2, 3, 4, 5, 6, 7,
   8, 9, 10, 11, 12, 13, 14, 15, 16, 17, 18, 19, 20, 21, 22, 23, 24, 25, 26, 27, 28, 29, 30, 31,
   32]

/-- Result of `ObjectHash::try_from_bstr`: a successful parse, a returned
`Err`, or a Rust panic (index out of bounds in the lookup table). -/
inductive HashParse where
  | ok (bytes : List Nat) : HashParse
  | err : HashParse
  | panicked : HashParse
deriving DecidableEq, Repr

/-- One step of the `std::array::from_fn` loop in `try_from_bstr`: combine
two hex characters into one byte via the lookup table, u8 arithmetic
(`HASH_VALUE[hi] << 4 | HASH_VALUE[lo]`).  `none` models the
index-out-of-bounds panic when a character is not below the table length. -/
def nibblePair (hi lo : Nat) : Option Nat := do
  let vhi ← HASH_VALUE[hi]?
  let vlo ← HASH_VALUE[lo]?
  pure (((vhi <<< 4) % 256) ||| vlo)

/-- The byte-assembly loop of `try_from_bstr`, two input characters per
output byte. -/
def nibbleBytes : List Nat → Option (List Nat)
  | [] => some []
  | [_] => some []
  | hi :: lo :: rest => do
    let b ← nibblePair hi lo
    let bs ← nibbleBytes rest
    pure (b :: bs)

/-- `ObjectHash::try_from_bstr` (src/shared/object_hash.rs): reject inputs
whose length is not 40, otherwise map character pairs through `HASH_VALUE`
with no hex validation. -/
def ObjectHash.try_from_bstr (hash : List Nat) : HashParse :=
  if hash.length ≠ 40 then .err
  else
    match nibbleBytes hash with
    | some bytes => .ok bytes
    | none => .panicked

/-! ### Delta engine (src/pack_diff.rs) -/

/-- A copy instruction: copy `len` bytes of the base starting at `offset`
(src/pack_diff.rs, struct CopyInstruction). -/
structure CopyInstruction where
  offset : Nat
  len : Nat
deriving DecidableEq, Repr

/-- A delta instruction: copy from the base, or add literal bytes
(src/pack_diff.rs, enum DiffInstruction; AddInstruction's box of bytes is
a byte list). -/
inductive DiffInstruction where
  | copy (c : CopyInstruction)
  | add (bytes : List Nat)
deriving DecidableEq, Repr

/-- `DiffInstruction::len` — number of target bytes the instruction
produces. -/
def DiffInstruction.len : DiffInstruction → Nat
  | .copy c => c.len
  | .add bs => bs.length

/-- A parsed delta (src/pack_diff.rs, struct PackDiff). -/
structure PackDiff where
  target_len : Nat
  negative_offset : Nat
  instructions : List DiffInstruction
deriving DecidableEq, Repr

/-- One step of `PackDiff::apply`: the bytes an instruction contributes.
A copy whose window exceeds the base is `none` (Rust panics on the
out-of-range slice `bytes[offset..offset+len]`). -/
def applyInst (base : List Nat) : DiffInstruction → Option (List Nat)
  | .add bs => some bs
  | .copy c =>
    if c.offset + c.len ≤ base.length then
      some ((base.drop c.offset).take c.len)
    else none

/-- The instruction loop of `PackDiff::apply`, concatenating the
contributed chunks in order. -/
def applyInsts (base : List Nat) : List DiffInstruction → Option (List Nat)
  | [] => some []
  | i :: rest => do
    let ch ← applyInst base i
    let out ← applyInsts base rest
    pure (ch ++ out)

/-- `PackDiff::apply` (src/pack_diff.rs): produce `target_len` bytes into a
pre-sized buffer.  Producing more bytes than `target_len` panics on the
out-of-range slice of the target buffer, and producing fewer leaves bytes
of the buffer uninitialized; both failure modes are `none`. -/
def PackDiff.apply (d : PackDiff) (base : List Nat) : Option (List Nat) :=
  match applyInsts base d.instructions with
  | some out => if out.length = d.target_len then some out else none
  | none => none

/-- The sub-instruction pushed by `get_instructions_from_copy`
(src/pack_diff.rs lines 216-227): a sub-copy shifted by
`source_instruction_offset`, or a sub-add with sliced literal bytes. -/
def emitFromCopy (si : DiffInstruction) (sio bt : Nat) : DiffInstruction :=
  match si with
  | .copy cp => .copy ⟨cp.offset + sio, bt⟩
  | .add bs => .add ((bs.drop sio).take bt)

/-- The instruction walk of `get_instructions_from_copy`
(src/pack_diff.rs): `cso` is `current_source_offset` and `consumed` is
`copy_instruction_consumed`; usize subtraction is Nat subtraction. -/
def gifcLoop (c : CopyInstruction) :
    List DiffInstruction → Nat → Nat → List DiffInstruction
  | [], _, _ => []
  | si :: rest, cso, consumed =>
    let L := si.len
    if c.offset < cso + L ∧ c.offset + c.len > cso then
      let sio := c.offset + consumed - cso
      let bytesToTake :=
        if L - sio ≤ c.len - consumed then L - sio else c.len - consumed
      emitFromCopy si sio bytesToTake
        :: gifcLoop c rest (cso + L) (consumed + bytesToTake)
    else if c.offset + c.len < cso then
      []
    else
      gifcLoop c rest (cso + L) consumed

/-- `get_instructions_from_copy` (src/pack_diff.rs): rewrite one copy
instruction of the outer delta into instructions over the source delta's
base. -/
def get_instructions_from_copy (c : CopyInstruction) (source : PackDiff) :
    List DiffInstruction :=
  gifcLoop c source.instructions 0 0

/-- The instruction loop of `PackDiff::combine`. -/
def combineInsts (other : PackDiff) : List DiffInstruction → List DiffInstruction
  | [] => []
  | .copy cp :: rest => get_instructions_from_copy cp other ++ combineInsts other rest
  | .add bs :: rest => .add bs :: combineInsts other rest

/-- `PackDiff::combine` (src/pack_diff.rs): compose `self` (the outer
delta) with `other` (the delta closer to the base). -/
def PackDiff.combine (self other : PackDiff) : PackDiff :=
  { target_len := self.target_len
    negative_offset := other.negative_offset
    instructions := combineInsts other self.instructions }

/-! ### Commit objects (src/objs/mod.rs, src/objs/commit.rs)

A parsed commit records, for each field, a sub-slice of its byte buffer;
the model stores the slice contents directly.  Hashes (CommitHash,
TreeHash wrapping ObjectHash) are their 20 raw bytes. -/

/-- A hash is its 20 raw bytes. -/
abbrev GitHash := List Nat

/-- One hex digit character (lowercase), as in hex::encode. -/
def hexDigit (d : Nat) : Nat := if d < 10 then 48 + d else 87 + d

/-- Hex display of a hash (Display for ObjectHash via hex::encode): two
lowercase hex characters per byte. -/
def displayHex (h : GitHash) : List Nat :=
  (h.map (fun b => [hexDigit (b / 16), hexDigit (b % 16)])).flatten

/-- `try_into().unwrap()` of a hex field slice into a hash, as used by
`CommitBase::parents` and `CommitEditable::parents`: the nibble-table
parse of the slice (the unwrap never fails on the valid commits these
theorems quantify over). -/
def hashFromSlice (s : List Nat) : GitHash := (nibbleBytes s).getD []

/-- Parsed commit (struct CommitBase, src/objs/mod.rs): the field slices
recorded by `CommitBase::create`, plus the raw payload bytes (the
`WriteBytes` buffer from `start` on). -/
structure CommitBase where
  hash : GitHash
  rawBytes : List Nat
  tree_line : List Nat
  parents : List (List Nat)
  author : List Nat
  author_time : List Nat
  committer : List Nat
  committer_time : List Nat
  remainder : List Nat
deriving DecidableEq, Repr

/-- Editable wrapper (struct CommitEditable, src/objs/mod.rs): the base
plus per-field overrides. -/
structure CommitEditable where
  base : CommitBase
  tree : Option GitHash
  parents : List (Option GitHash)
  author : Option (List Nat)
  committer : Option (List Nat)
deriving DecidableEq, Repr

/-- `CommitEditable::create`. -/
def CommitEditable.create (base : CommitBase) : CommitEditable :=
  ⟨base, none, base.parents.map (fun _ => none), none, none⟩

/-- `CommitEditable::has_changes`. -/
def CommitEditable.has_changes (c : CommitEditable) : Bool :=
  c.tree.isSome || c.author.isSome || c.committer.isSome ||
    c.parents.any Option.isSome

/-- `CommitEditable::parents`: override if present, else the parsed base
slice. -/
def CommitEditable.parentHashes (c : CommitEditable) : List GitHash :=
  List.zipWith
    (fun slice o =>
      match o with
      | some p => p
      | none => hashFromSlice slice)
    c.base.parents c.parents

/-- `CommitEditable::author_bytes`. -/
def CommitEditable.author_bytes (c : CommitEditable) : List Nat :=
  c.author.getD c.base.author

/-- `CommitEditable::committer_bytes`. -/
def CommitEditable.committer_bytes (c : CommitEditable) : List Nat :=
  c.committer.getD c.base.committer

/-- `CommitEditable::set_author`. -/
def CommitEditable.set_author (c : CommitEditable) (a : List Nat) :
    CommitEditable :=
  { c with author := some a }

/-- `CommitEditable::set_committer`. -/
def CommitEditable.set_committer (c : CommitEditable) (a : List Nat) :
    CommitEditable :=
  { c with committer := some a }

/-- Byte constants used by the serializer. -/
def bTree : List Nat := [116, 114, 101, 101, 32]

/-- "parent " as bytes. -/
def bParent : List Nat := [112, 97, 114, 101, 110, 116, 32]

/-- "author " as bytes. -/
def bAuthor : List Nat := [97, 117, 116, 104, 111, 114, 32]

/-- "committer " as bytes. -/
def bCommitter : List Nat := [99, 111, 109, 109, 105, 116, 116, 101, 114, 32]

/-- The pre-computed buffer capacity in `CommitEditable::to_bytes`
(src/objs/commit.rs lines 253-264), term for term:
`b"tree \n"` is 6 bytes, `b"parent \n"` 8, `b"author  \n"` 9,
`b"committer  \n"` 12. -/
def toBytesCapacity (tree : List Nat) (parents : List (List Nat))
    (author author_time committer committer_time remainder : List Nat) : Nat :=
  6 + tree.length
    + (parents.map (fun parent => 8 + parent.length)).sum
    + (9 + author.length)
    + committer_time.length
    + (12 + committer.length)
    + author_time.length
    + remainder.length

/-- The write sequence of `CommitEditable::to_bytes` (lines 266-288). -/
def serializeCommit (tree : List Nat) (parents : List (List Nat))
    (author author_time committer committer_time remainder : List Nat) :
    List Nat :=
  bTree ++ tree ++ [10]
    ++ (parents.map (fun parent => bParent ++ parent ++ [10])).flatten
    ++ bAuthor ++ author ++ [32] ++ author_time ++ [10]
    ++ bCommitter ++ committer ++ [32] ++ committer_time ++ [10]
    ++ remainder

/-- `CommitEditable::to_bytes` (src/objs/commit.rs): the base buffer when
nothing changed, else the canonical serialization of the effective
fields (overrides win; parents are re-formatted as hex). -/
def CommitEditable.to_bytes (c : CommitEditable) : List Nat :=
  if c.has_changes = false then c.base.rawBytes
  else
    serializeCommit
      (match c.tree with
        | some t => displayHex t
        | none => c.base.tree_line)
      (c.parentHashes.map displayHex)
      (c.author_bytes) c.base.author_time
      (c.committer_bytes) c.base.committer_time
      c.base.remainder

/-! ### Contributor rewrite (src/contributors.rs) -/

/-- `rewritten_commits` / `commit_trees` maps are association lists with
most-recent-first lookup (FxHashMap::get; keys are inserted once per
run). -/
def mapLookup (m : List (GitHash × GitHash)) (k : GitHash) : Option GitHash :=
  (m.find? (fun kv => kv.1 == k)).map Prod.snd

/-- The per-commit body of the rewrite loop (src/contributors.rs lines
51-64): override the author when the mapping knows it, then the
committer, then each parent present in `rewritten_commits`. -/
def rewriteOne (M : List Nat → Option (List Nat))
    (rw : List (GitHash × GitHash)) (base : CommitBase) : CommitEditable :=
  let c0 := CommitEditable.create base
  let c1 := match M c0.author_bytes with
    | some newAuthor => c0.set_author newAuthor
    | none => c0
  let c2 := match M c1.committer_bytes with
    | some newCommitter => c1.set_committer newCommitter
    | none => c1
  { c2 with parents := c2.parentHashes.map (fun p => mapLookup rw p) }

/-- The rewrite loop of `contributors::rewrite` (lines 50-72): emit the
commit (serialize, hash via `calculate_hash`, modelled by `hashC`) and
record `old → new` exactly when an override was applied. -/
def contributorRewriteLoop (M : List Nat → Option (List Nat))
    (hashC : List Nat → GitHash) :
    List (GitHash × GitHash) → List CommitBase →
      List (GitHash × CommitEditable) × List (GitHash × GitHash)
  | rw, [] => ([], rw)
  | rw, base :: rest =>
    let e := rewriteOne M rw base
    if e.has_changes then
      let r := contributorRewriteLoop M hashC
        ((base.hash, hashC e.to_bytes) :: rw) rest
      ((base.hash, e) :: r.1, r.2)
    else
      contributorRewriteLoop M hashC rw rest

/-! ### Empty-commit prune (src/prune.rs)

The prune pipeline only reads a commit's hash, tree and parents and only
rewrites its parents; the remaining serialized fields are carried opaquely
in `others`.  Re-hashing a rewritten commit
(`Commit::create(None, commit.to_bytes(), false)` followed by `.hash()`,
i.e. SHA-1 of the re-serialized bytes) is the abstract parameter `hashC`
of the fields the serialization depends on. -/

/-- A commit as consumed by the prune pipeline. -/
structure PCommit where
  hash : GitHash
  tree : GitHash
  parents : List GitHash
  others : List Nat
deriving DecidableEq, Repr

/-- Outcome of `parent_if_empty` (src/prune.rs lines 18-38): prune to the
resolved parent, keep the commit, or panic — the direct index
`commit_trees[&parent]` fails when the resolved parent is not a key. -/
inductive PruneDecision where
  | prune (parent : GitHash) : PruneDecision
  | keep : PruneDecision
  | panicked : PruneDecision
deriving DecidableEq, Repr

/-- `parent_if_empty` (src/prune.rs): a commit with exactly one parent is
pruned when, after resolving the parent through `rewritten_commits`
(identity if absent), that parent's recorded tree equals this commit's
tree. -/
def parent_if_empty (c : PCommit) (rewritten_commits : List (GitHash × GitHash))
    (commit_trees : List (GitHash × GitHash)) : PruneDecision :=
  match c.parents with
  | [p] =>
    let parent := (mapLookup rewritten_commits p).getD p
    match mapLookup commit_trees parent with
    | none => .panicked
    | some parent_tree =>
      if parent_tree = c.tree then .prune parent else .keep
  | _ => .keep

/-- Result accumulator of `find_empty_commits`: the `rewritten_commits`
and `commit_trees` maps, the hashes of pruned commits, and the rewritten
commits sent to the writer channel. -/
structure PruneResult where
  rewritten_commits : List (GitHash × GitHash)
  commit_trees : List (GitHash × GitHash)
  pruned : List GitHash
  emitted : List PCommit
deriving DecidableEq, Repr

/-- `find_empty_commits` (src/prune.rs lines 40-71) over the commits the
topological iterator yields, threading both maps; `none` models the panic
inside `parent_if_empty`.  A pruned commit maps to its resolved parent and
is not emitted; otherwise parents are remapped, the commit re-hashed, its
tree recorded under the new hash, and it is recorded and emitted exactly
when its hash changed. -/
def find_empty_commits (hashC : GitHash → List GitHash → List Nat → GitHash) :
    List PCommit → List (GitHash × GitHash) → List (GitHash × GitHash) →
      Option PruneResult
  | [], rw, trees => some ⟨rw, trees, [], []⟩
  | c :: rest, rw, trees =>
    match parent_if_empty c rw trees with
    | .panicked => none
    | .prune parent =>
      (find_empty_commits hashC rest ((c.hash, parent) :: rw) trees).map
        (fun r => ⟨r.rewritten_commits, r.commit_trees,
          c.hash :: r.pruned, r.emitted⟩)
    | .keep =>
      let newParents := c.parents.map (fun p => (mapLookup rw p).getD p)
      let newHash := hashC c.tree newParents c.others
      let c2 : PCommit := ⟨newHash, c.tree, newParents, c.others⟩
      let trees2 := (newHash, c.tree) :: trees
      if c.hash ≠ newHash then
        (find_empty_commits hashC rest ((c.hash, newHash) :: rw) trees2).map
          (fun r => ⟨r.rewritten_commits, r.commit_trees,
            r.pruned, c2 :: r.emitted⟩)
      else
        find_empty_commits hashC rest rw trees2

/-! ### Reference store (src/refs.rs) -/

/-- A reference: simple `(name, hash)` or annotated-tag
`(name, tag hash, peeled hash)` (enum GitRef, src/refs.rs). -/
inductive GitRef where
  | simple (name hash : List Nat) : GitRef
  | tag (name hash obj_hash : List Nat) : GitRef
deriving DecidableEq, Repr

/-- `RefName::get_name`. -/
def GitRef.get_name : GitRef → List Nat
  | .simple name _ => name
  | .tag name _ _ => name

/-- `RefName::get_target` — the hex hash bytes (for a tag ref, the tag
object's own hash). -/
def GitRef.get_target : GitRef → List Nat
  | .simple _ hash => hash
  | .tag _ hash _ => hash

/-- Inner walk of `Vec::dedup_by`: drop an element equal (by name) to the
last kept element, otherwise keep it and compare the rest against it. -/
def dedupGo (prev : GitRef) : List GitRef → List GitRef
  | [] => []
  | y :: ys =>
    if y.get_name = prev.get_name then dedupGo prev ys
    else y :: dedupGo y ys

/-- `Vec::dedup_by` with name equality, as called by `GitRef::read_all`:
removes all but the first of CONSECUTIVE same-name elements. -/
def dedupByName : List GitRef → List GitRef
  | [] => []
  | x :: xs => x :: dedupGo x xs

/-- `GitRef::read_all` (src/refs.rs lines 61-83) on the parsed contents of
the refs directory and the optional packed-refs file: loose refs first,
then the packed refs appended, then `dedup_by` on names. -/
def GitRef.read_all (loose : List GitRef) (packed : Option (List GitRef)) :
    List GitRef :=
  match packed with
  | none => loose
  | some p => dedupByName (loose ++ p)

/-! ### Reference update (src/refs.rs, `GitRef::update` /
`rewrite_ref`)

`GitRef::update` is modelled by the list of filesystem operations it
performs.  The object store is the abstract `readObj`; tag re-serialization
(`Tag::set_object` + `to_bytes`) and tag hashing are the abstract
parameters `tagSetObject` and `hashTag`. -/

/-- A filesystem mutation. -/
inductive FsOp where
  | createDir (path : List Nat) : FsOp
  | writeFile (path : List Nat) (content : List Nat) : FsOp
  | removeFile (path : List Nat) : FsOp
deriving DecidableEq, Repr

/-- What an annotated tag points at (enum TagTargetType). -/
inductive TagTargetKind where
  | commit
  | tree
  | tag
deriving DecidableEq, Repr

/-- The shape of the object a ref target resolves to, as consumed by
`rewrite_ref`. -/
inductive GitObjectR where
  | commitObj : GitObjectR
  | treeObj (hash : GitHash) : GitObjectR
  | tagObj (target : TagTargetKind) (objHash : GitHash)
      (origBytes : List Nat) (hash : GitHash) : GitObjectR

/-- Directory part of a path (everything before the file name). -/
def dirOf (p : List Nat) : List Nat :=
  (p.reverse.dropWhile (fun b => b ≠ 47)).reverse

/-- Loose object path `objects/<hex2>/<hex38>` under the repository. -/
def objectPath (repoPath : List Nat) (h : GitHash) : List Nat :=
  repoPath ++ [47, 111, 98, 106, 101, 99, 116, 115, 47]
    ++ (displayHex h).take 2 ++ [47] ++ (displayHex h).drop 2

/-- `rewrite_ref` (src/refs.rs lines 97-175), as the filesystem operations
of one ref: a commit target gets its directory created and, when
remapped, its loose ref file rewritten; a tree target is skipped; an
annotated tag pointing at a remapped commit gets a new tag object written
and the ref file pointed at it; a tag pointing at a tag panics
(`none`).  No branch ever removes a file. -/
def rewrite_ref_ops (hashTag : List Nat → GitHash)
    (tagSetObject : List Nat → GitHash → List Nat)
    (repoPath : List Nat) (rw : List (GitHash × GitHash))
    (readObj : List Nat → GitObjectR) (refName refTarget : List Nat) :
    Option (List FsOp) :=
  match readObj refTarget with
  | .commitObj =>
    let refPath := repoPath ++ [47] ++ refName
    match mapLookup rw (hashFromSlice refTarget) with
    | some newTarget =>
      some [FsOp.createDir (dirOf refPath),
        FsOp.writeFile refPath (displayHex newTarget)]
    | none => some [FsOp.createDir (dirOf refPath)]
  | .treeObj _ => some []
  | .tagObj .commit objHash origBytes _ =>
    match mapLookup rw objHash with
    | some newObj =>
      let newBytes := tagSetObject origBytes newObj
      let newHash := hashTag newBytes
      let refPath := repoPath ++ [47] ++ refName
      some [FsOp.writeFile (objectPath repoPath newHash) newBytes,
        FsOp.createDir (dirOf refPath),
        FsOp.writeFile refPath (displayHex newHash)]
    | none => some []
  | .tagObj .tree _ _ _ => some []
  | .tagObj .tag _ _ _ => none

/-- `GitRef::update` (src/refs.rs lines 85-95): rewrite every ref in turn;
the `// TODO delete packed refs` is not implemented, so the operation list
contains only what `rewrite_ref` emits. -/
def GitRef.update_ops (hashTag : List Nat → GitHash)
    (tagSetObject : List Nat → GitHash → List Nat)
    (repoPath : List Nat) (rw : List (GitHash × GitHash))
    (readObj : List Nat → GitObjectR) : List GitRef → Option (List FsOp)
  | [] => some []
  | r :: rest => do
    let ops ← rewrite_ref_ops hashTag tagSetObject repoPath rw readObj
      r.get_name r.get_target
    let rest2 ← GitRef.update_ops hashTag tagSetObject repoPath rw readObj rest
    pure (ops ++ rest2)

/-- Whether a file exists after a list of filesystem operations. -/
def fileExistsAfter (exists0 : Bool) (ops : List FsOp) (path : List Nat) :
    Bool :=
  ops.foldl
    (fun ex op =>
      match op with
      | .removeFile q => if q = path then false else ex
      | .writeFile q _ => if q = path then true else ex
      | .createDir _ => ex)
    exists0

/-! ### Pack reader (crates/gitrwlib/src/packreader.rs)

The pack mmap is a byte list; the OID → offset map of the pack index is
the abstract `offsets`; the DEFLATE decoder
(`compression.unpack(mmap, pack_object, extra)`, out of scope per the
spec) is the abstract `unpack`, returning the decompressed payload of an
entry given the extra bytes between header and stream.  Out-of-bounds
mmap reads (`.unwrap()` panics) are `none`; a missing OID is also `none`
(the reader returns Rust `None` for the top object and unwraps inside the
ref-delta recursion).  Loops are run on fuel large enough that exhaustion
is unreachable on the inputs the theorems quantify over. -/

/-- A parsed pack entry header (struct PackObject,
crates/gitrwlib/src/packreader.rs). -/
structure PackObject where
  object_type : Nat
  offset : Nat
  header_len : Nat
  data_size : Nat
deriving DecidableEq, Repr

/-- The size-continuation loop of `PackObject::create`. -/
def sizeLoop (pack : List Nat) (offset : Nat) :
    Nat → Nat → Nat → Nat → Option (Nat × Nat)
  | 0, _, _, _ => none
  | fuel + 1, bytesRead, dataSize, shift => do
    let b ← pack[offset + bytesRead]?
    let dataSize2 := dataSize ||| ((b &&& 127) <<< shift)
    if b &&& 128 ≠ 0 then
      sizeLoop pack offset fuel (bytesRead + 1) dataSize2 (shift + 7)
    else
      some (bytesRead + 1, dataSize2)

/-- `PackObject::create`: 3-bit type in bits 6..4 of the first byte, 4 low
size bits, then 7 more size bits per continuation byte. -/
def PackObject.create (pack : List Nat) (offset : Nat) : Option PackObject := do
  let b0 ← pack[offset]?
  let otype := (b0 &&& 112) >>> 4
  let size0 := b0 &&& 15
  if b0 &&& 128 ≠ 0 then
    match sizeLoop pack offset (pack.length + 1) 1 size0 4 with
    | some (bytesRead, dataSize) => some ⟨otype, offset, bytesRead, dataSize⟩
    | none => none
  else
    some ⟨otype, offset, 1, size0⟩

/-- The continuation loop of `read_base_offset` (src/pack_diff.rs lines
278-296), with Git's `+1` before each shift. -/
def baseOffLoop (pack : List Nat) (start : Nat) :
    Nat → Nat → Nat → Nat → Option (Nat × Nat)
  | 0, _, _, _ => none
  | fuel + 1, byte, bytesRead, offsetAcc =>
    if byte &&& 128 ≠ 0 then do
      let b2 ← pack[start + bytesRead]?
      baseOffLoop pack start fuel b2 (bytesRead + 1)
        (((offsetAcc + 1) <<< 7) + (b2 &&& 127))
    else
      some (offsetAcc, bytesRead)

/-- `read_base_offset` (src/pack_diff.rs): the variable-length negative
offset preceding an OFS_DELTA payload. -/
def read_base_offset (pack : List Nat) (po : PackObject) : Option (Nat × Nat) := do
  let b0 ← pack[po.offset + po.header_len]?
  baseOffLoop pack (po.offset + po.header_len) (pack.length + 1) b0 1
    (b0 &&& 127)

/-- Continuation loop of `read_varint` (src/pack_diff.rs lines 240-255). -/
def readVarintLoop (data : List Nat) :
    Nat → Nat → Nat → Nat → Option (Nat × Nat)
  | 0, _, _, _ => none
  | fuel + 1, offset, len, shift => do
    let b ← data[offset]?
    let len2 := len ||| ((b &&& 127) <<< shift)
    if b &&& 128 ≠ 0 then
      readVarintLoop data fuel (offset + 1) len2 (shift + 7)
    else
      some (len2, offset + 1)

/-- `read_varint` (src/pack_diff.rs): base-128 little-endian varint,
returning the value and the offset after it. -/
def read_varint (data : List Nat) (offset : Nat) : Option (Nat × Nat) := do
  let b ← data[offset]?
  if b &&& 128 ≠ 0 then
    readVarintLoop data (data.length + 1) (offset + 1) (b &&& 127) 7
  else
    some (b &&& 127, offset + 1)

/-- Read one extra byte when the corresponding flag bit of a copy
instruction is set (src/pack_diff.rs, CopyInstruction::create). -/
def readIf (data : List Nat) (cond : Bool) (cur : Nat) : Option (Nat × Nat) :=
  if cond then do
    let b ← data[cur]?
    some (b, cur + 1)
  else
    some (0, cur)

/-- `CopyInstruction::create` (src/pack_diff.rs lines 11-58): seven flag
bits select four little-endian offset bytes and three length bytes; a zero
length means 65536. -/
def CopyInstruction.create (data : List Nat) (off0 : Nat) :
    Option (CopyInstruction × Nat) := do
  let ci ← data[off0]?
  let (b1, cur) ← readIf data (ci &&& 1 != 0) (off0 + 1)
  let (b2, cur) ← readIf data (ci &&& 2 != 0) cur
  let (b3, cur) ← readIf data (ci &&& 4 != 0) cur
  let (b4, cur) ← readIf data (ci &&& 8 != 0) cur
  let (b5, cur) ← readIf data (ci &&& 16 != 0) cur
  let (b6, cur) ← readIf data (ci &&& 32 != 0) cur
  let (b7, cur) ← readIf data (ci &&& 64 != 0) cur
  let offset := b1 ||| (b2 <<< 8) ||| (b3 <<< 16) ||| (b4 <<< 24)
  let len0 := b5 ||| (b6 <<< 8) ||| (b7 <<< 16)
  let len := if len0 = 0 then 65536 else len0
  some (⟨offset, len⟩, cur)

/-- `AddInstruction::create` (src/pack_diff.rs lines 85-96): a literal-byte
count followed by that many bytes (out-of-range slice panics). -/
def AddInstruction.create (data : List Nat) (off0 : Nat) :
    Option (DiffInstruction × Nat) := do
  let n ← data[off0]?
  if off0 + 1 + n ≤ data.length then
    some (.add ((data.drop (off0 + 1)).take n), off0 + 1 + n)
  else
    none

/-- The instruction loop of `build_delta_instructions` (src/pack_diff.rs
lines 257-276): MSB set means copy, clear means add, until `data_size`
bytes of the stream are consumed. -/
def buildLoop (data : List Nat) (dataSize : Nat) :
    Nat → Nat → Option (List DiffInstruction)
  | 0, _ => none
  | fuel + 1, bytesRead =>
    if bytesRead < dataSize then do
      let instr ← data[bytesRead]?
      if instr &&& 128 ≠ 0 then do
        let (ci, cur) ← CopyInstruction.create data bytesRead
        let rest ← buildLoop data dataSize fuel cur
        pure (DiffInstruction.copy ci :: rest)
      else do
        let (ai, cur) ← AddInstruction.create data bytesRead
        let rest ← buildLoop data dataSize fuel cur
        pure (ai :: rest)
    else
      some []

/-- `build_delta_instructions` (src/pack_diff.rs). -/
def build_delta_instructions (data : List Nat) (dataSize bytesRead : Nat) :
    Option (List DiffInstruction) :=
  buildLoop data dataSize (dataSize + 1) bytesRead

/-- `PackDiff::create` (src/pack_diff.rs lines 119-139): parse the base
back-offset, decompress the stream behind it, skip the base-size varint,
read the target-size varint, then materialize the instructions. -/
def PackDiff.create (unpack : PackObject → Nat → List Nat)
    (pack : List Nat) (po : PackObject) : Option PackDiff := do
  let (base_offset, bytes_read) ← read_base_offset pack po
  let diffBytes := unpack po bytes_read
  let (_, br2) ← read_varint diffBytes 0
  let (target_len, br3) ← read_varint diffBytes br2
  let insts ← build_delta_instructions diffBytes po.data_size br3
  pure ⟨target_len, base_offset, insts⟩

/-- Modelled from the spec: `PackDiff::create_for_ref` is called by the
REF_DELTA branch of `read_git_object_bytes`
(crates/gitrwlib/src/packreader.rs line 121) but its definition is not
among the provided sources.  Per spec section 4.C step 3, a ref delta's
payload is the 20-byte base OID followed by the DEFLATE-compressed
instruction stream, so the delta is parsed like an OFS_DELTA's except
that decompression starts 20 bytes after the header and no back-offset
exists. -/
def PackDiff.create_for_ref (unpack : PackObject → Nat → List Nat)
    (po : PackObject) : Option PackDiff := do
  let diffBytes := unpack po 20
  let (_, br2) ← read_varint diffBytes 0
  let (target_len, br3) ← read_varint diffBytes br2
  let insts ← build_delta_instructions diffBytes po.data_size br3
  pure ⟨target_len, 0, insts⟩

/-- The OFS_DELTA chain loop of `restore_diff_object_bytes`
(crates/gitrwlib/src/packreader.rs lines 136-153): compose deltas while
the base is itself an offset delta, then decompress the ultimate base and
apply the composed delta once. -/
def restoreLoop (unpack : PackObject → Nat → List Nat) (pack : List Nat) :
    Nat → PackDiff → PackObject → Option (List Nat × PackObject)
  | 0, _, _ => none
  | fuel + 1, pack_diff, po =>
    if po.object_type = 6 then do
      let target_diff ← PackDiff.create unpack pack po
      let pack_diff2 := pack_diff.combine target_diff
      let po2 ← PackObject.create pack (po.offset - pack_diff2.negative_offset)
      restoreLoop unpack pack fuel pack_diff2 po2
    else do
      let content := unpack po 0
      let bytes ← pack_diff.apply content
      pure (bytes, po)

/-- `restore_diff_object_bytes` (crates/gitrwlib/src/packreader.rs). -/
def restore_diff_object_bytes (unpack : PackObject → Nat → List Nat)
    (pack : List Nat) (po : PackObject) : Option (List Nat × PackObject) := do
  let pack_diff ← PackDiff.create unpack pack po
  let po2 ← PackObject.create pack (po.offset - pack_diff.negative_offset)
  restoreLoop unpack pack (po.offset + 1) pack_diff po2

/-- `PackReader::read_git_object_bytes`
(crates/gitrwlib/src/packreader.rs lines 99-133): look the OID up, parse
the entry header; type 6 resolves an offset-delta chain; type 7 reads the
20 bytes after the header as the base OID, recursively fetches the base's
payload, parses and applies the ref delta, and returns the base's
PackObject (hence the ultimate non-delta base's type); anything else is a
plain entry. -/
def read_git_object_bytes (unpack : PackObject → Nat → List Nat)
    (pack : List Nat) (offsets : GitHash → Option Nat) :
    Nat → GitHash → Option (List Nat × PackObject)
  | 0, _ => none
  | fuel + 1, h => do
    let offset ← offsets h
    let po ← PackObject.create pack offset
    if po.object_type = 6 then
      restore_diff_object_bytes unpack pack po
    else if po.object_type = 7 then do
      let slice_start := po.offset + po.header_len
      if slice_start + 20 ≤ pack.length then do
        let base_object_hash := (pack.drop slice_start).take 20
        let base ← read_git_object_bytes unpack pack offsets fuel
          base_object_hash
        let pack_diff ← PackDiff.create_for_ref unpack po
        let bytes ← pack_diff.apply base.1
        pure (bytes, base.2)
      else
        none
    else
      pure (unpack po 0, po)

/-! ### Topological commit iterator (src/commits.rs, CommitsFifoIter)

The iterator walks an abstract commit graph: a commit is its hash plus its
parent hashes, and `lookup` is the pack-or-loose reader
(`read_object_from_hash(...).unwrap()`), a total function whose behaviour
on the reachable hashes is constrained by the theorems' hypotheses.  The
Rust stack is a list with its head as the top (the `Vec`'s end); the two
`FxHashSet`s are duplicate-free lists. -/

/-- A commit as the iterator sees it. -/
structure FCommit (H : Type) where
  hash : H
  parents : List H
deriving DecidableEq

/-- Iterator state (struct CommitsFifoIter): the stack of commits, the
emitted set and the seen-on-stack set. -/
structure FifoState (H : Type) where
  commits : List (FCommit H)
  processed_commits : List H
  parents_seen : List H

/-- `FxHashSet::insert` (only the membership effect; the returned flag is
tested separately). -/
def seenInsert {H : Type} [DecidableEq H] (s : List H) (h : H) : List H :=
  if h ∈ s then s else h :: s

/-- `CommitsFifoIter::create` (src/commits.rs lines 28-63): the stack is
seeded with the commit each ref resolves to, in ref order (so the last
ref is on top), with both sets empty. -/
def fifoInit {H : Type} (lookup : H → FCommit H) (roots : List H) :
    FifoState H :=
  ⟨(roots.map lookup).reverse, [], []⟩

/-- The iterator loop (`CommitsFifoIter::next`, src/commits.rs lines
65-101), run to exhaustion and collecting every emitted commit.  One fuel
unit is one iteration of the inner `while let` loop; `none` is returned
only on fuel exhaustion with a non-empty stack.  A popped commit already
processed is dropped (removing it from `parents_seen`); otherwise, if it
was already in `parents_seen` — its parents have been handled — or has no
parents, it is emitted (the `insert` call has put it into `parents_seen`
either way); otherwise it is pushed back and its unprocessed parents are
read and pushed on top of it. -/
def fifoRun {H : Type} [DecidableEq H] (lookup : H → FCommit H) :
    Nat → FifoState H → Option (List (FCommit H))
  | 0, s => if s.commits.isEmpty then some [] else none
  | fuel + 1, s =>
    match s.commits with
    | [] => some []
    | c :: rest =>
      if c.hash ∈ s.processed_commits then
        fifoRun lookup fuel
          ⟨rest, s.processed_commits, s.parents_seen.erase c.hash⟩
      else if c.hash ∈ s.parents_seen ∨ c.parents = [] then
        (fifoRun lookup fuel
            ⟨rest, c.hash :: s.processed_commits,
              seenInsert s.parents_seen c.hash⟩).map (c :: ·)
      else
        fifoRun lookup fuel
          ⟨((c.parents.filter
                (fun p => p ∉ s.processed_commits)).map lookup).reverse
              ++ c :: rest,
            s.processed_commits, c.hash :: s.parents_seen⟩

/-- Hashes reachable from the root commits by following parent links
through the reader. -/
inductive Reachable {H : Type} (lookup : H → FCommit H) (roots : List H) :
    H → Prop where
  | root (r : H) (hr : r ∈ roots) : Reachable lookup roots r
  | parent (h p : H) (hh : Reachable lookup roots h)
      (hp : p ∈ (lookup h).parents) : Reachable lookup roots p

/-- Termination potential of a state over the hash universe `U`: the
stack length plus, for every hash neither seen nor processed, one plus its
parent count. -/
def fifoPhi {H : Type} [DecidableEq H] (lookup : H → FCommit H)
    (U : List H) (s : FifoState H) : Nat :=
  s.commits.length +
    ((U.filter (fun h =>
        decide (h ∉ s.parents_seen ∧ h ∉ s.processed_commits))).map
      (fun h => 1 + (lookup h).parents.length)).sum

/-- A concrete three-commit graph (0 has parents 1 and 2, 1 has parent 2,
2 is a root commit) used to exercise the iterator. -/
def demoLookup : Nat → FCommit Nat
  | 0 => ⟨0, [1, 2]⟩
  | 1 => ⟨1, [2]⟩
  | n => ⟨n, []⟩

end Gitrw

/-! ## Theorems -/

namespace Gitrw

/-- The lookup table has 120 entries. -/
theorem HASH_VALUE_length : HASH_VALUE.length = 120 := by decide

/-- A table lookup succeeds exactly for characters below 120. -/
theorem hashValue_get_isSome (n : Nat) :
    (HASH_VALUE[n]?).isSome = true ↔ n < 120 := by
  constructor
  · intro h
    by_contra hn
    rw [List.getElem?_eq_none (by rw [HASH_VALUE_length]; omega)] at h
    simp at h
  · intro h
    rw [List.getElem?_eq_getElem (by rw [HASH_VALUE_length]; omega)]
    simp

/-- Helper: on even-length inputs, nibbleBytes succeeds iff every input
character is below the table length. -/
theorem nibbleBytes_isSome_iff :
    ∀ bs : List Nat, bs.length % 2 = 0 →
      ((nibbleBytes bs).isSome ↔ ∀ b ∈ bs, b < 120)
  | [], _ => by simp [nibbleBytes]
  | [x], h => by simp at h
  | hi :: lo :: rest, h => by
    have ih := nibbleBytes_isSome_iff rest (by
      simp only [List.length_cons] at h; omega)
    constructor
    · intro hs b hb
      simp only [nibbleBytes, nibblePair, Option.bind_eq_bind] at hs
      rcases h1 : HASH_VALUE[hi]? with _ | v1 <;> rw [h1] at hs
      · simp at hs
      rcases h2 : HASH_VALUE[lo]? with _ | v2 <;> rw [h2] at hs
      · simp at hs
      rcases h3 : nibbleBytes rest with _ | out <;> rw [h3] at hs
      · simp at hs
      have hhi : hi < 120 := (hashValue_get_isSome hi).1 (by simp [h1])
      have hlo : lo < 120 := (hashValue_get_isSome lo).1 (by simp [h2])
      simp only [List.mem_cons] at hb
      rcases hb with rfl | rfl | hb
      · exact hhi
      · exact hlo
      · exact (ih.1 (by simp [h3])) b hb
    · intro hall
      have hhi := (hashValue_get_isSome hi).2 (hall hi (by simp))
      have hlo := (hashValue_get_isSome lo).2 (hall lo (by simp))
      have hrest := ih.2 (fun b hb => hall b (by simp [hb]))
      rcases h1 : HASH_VALUE[hi]? with _ | v1
      · rw [h1] at hhi; simp at hhi
      rcases h2 : HASH_VALUE[lo]? with _ | v2
      · rw [h2] at hlo; simp at hlo
      rcases h3 : nibbleBytes rest with _ | out
      · rw [h3] at hrest; simp at hrest
      simp [nibbleBytes, nibblePair, h1, h2, h3]

/-- C10 (counterexample): the 40-character input consisting entirely of the
byte 120 (ASCII x) makes try_from_bstr hit an out-of-bounds index in the
120-entry lookup table (a panic), instead of yielding a well-defined OID. -/
theorem C10_counterexample :
    ObjectHash.try_from_bstr (List.replicate 40 120) = .panicked := by decide

/-- C10 (amended): try_from_bstr returns Err iff the input length is not
40; a 40-byte input is accepted (mapped through the nibble table with no
hex validation) iff every byte is below 120, the lookup-table length;
40-byte inputs containing a byte of 120 or more panic with an
out-of-bounds index instead. -/
theorem C10_try_from_bstr_spec (bs : List Nat) (h40 : bs.length = 40) :
    (ObjectHash.try_from_bstr bs ≠ .err) ∧
      ((∃ out, ObjectHash.try_from_bstr bs = .ok out) ↔ ∀ b ∈ bs, b < 120) ∧
      ((∀ b ∈ bs, b < 120) →
        ObjectHash.try_from_bstr bs = .ok ((nibbleBytes bs).getD [])) := by
  have heven : bs.length % 2 = 0 := by rw [h40]
  have hiff := nibbleBytes_isSome_iff bs heven
  unfold ObjectHash.try_from_bstr
  rw [if_neg (by simp [h40])]
  refine ⟨?_, ?_, ?_⟩
  · rcases h : nibbleBytes bs with _ | out <;> simp [h]
  · constructor
    · rintro ⟨out, hout⟩
      apply hiff.1
      rcases h : nibbleBytes bs with _ | o <;> rw [h] at hout
      · simp at hout
      · simp [h]
    · intro hall
      have := hiff.2 hall
      rcases h : nibbleBytes bs with _ | o
      · rw [h] at this; simp at this
      · exact ⟨o, by simp [h]⟩
  · intro hall
    have := hiff.2 hall
    rcases h : nibbleBytes bs with _ | o
    · rw [h] at this; simp at this
    · simp [h]

/-- C10 witness: the theorem applied to the all-zeros hex string. -/
theorem C10_try_from_bstr_spec_witness :
    (List.replicate 40 48).length = 40 ∧
      ObjectHash.try_from_bstr (List.replicate 40 48) ≠ .err :=
  ⟨by decide, (C10_try_from_bstr_spec (List.replicate 40 48) (by decide)).1⟩

/-- C10: length test for non-40 inputs gives Err. -/
theorem try_from_bstr_err_iff (bs : List Nat) :
    ObjectHash.try_from_bstr bs = .err ↔ bs.length ≠ 40 := by
  unfold ObjectHash.try_from_bstr
  by_cases h : bs.length = 40
  · rw [if_neg (by simp [h])]
    rcases hn : nibbleBytes bs with _ | o <;> simp [h]
  · simp [h]

/-! ### Delta engine theorems (C2) -/

/-- Each instruction contributes exactly `len` bytes when it applies. -/
theorem applyInst_length {B : List Nat} {si : DiffInstruction} {ch : List Nat}
    (h : applyInst B si = some ch) : ch.length = si.len := by
  cases si with
  | add bs =>
    simp only [applyInst] at h
    cases h
    rfl
  | copy cp =>
    simp only [applyInst] at h
    split at h
    · cases h
      simp only [DiffInstruction.len, List.length_take, List.length_drop]
      omega
    · cases h

/-- applyInsts distributes over concatenation of instruction lists. -/
theorem applyInsts_append (B : List Nat) :
    ∀ l1 l2 : List DiffInstruction,
      applyInsts B (l1 ++ l2) =
        (applyInsts B l1).bind fun o1 =>
          (applyInsts B l2).map fun o2 => o1 ++ o2
  | [], l2 => by
    rcases h : applyInsts B l2 with _ | o <;>
      simp [applyInsts, h, Option.bind, Option.map]
  | i :: rest, l2 => by
    have ih := applyInsts_append B rest l2
    show applyInsts B (i :: (rest ++ l2)) = _
    rcases hch : applyInst B i with _ | ch
    · simp [applyInsts, hch]
    · simp only [applyInsts, hch, Option.bind_eq_bind, Option.some_bind,
        Option.pure_def]
      rw [ih]
      rcases h1 : applyInsts B rest with _ | o1
      · simp
      · rcases h2 : applyInsts B l2 with _ | o2
        · simp
        · simp [List.append_assoc]

/-- Correctness of the `get_instructions_from_copy` loop: if the source
delta's remaining instructions produce `out` (the source target bytes from
position `cso` on) and the loop state satisfies the consumption invariant,
the emitted instructions reproduce, against the base, exactly the still
uncovered part of the requested copy window. -/
theorem gifcLoop_spec (B : List Nat) (c : CopyInstruction) :
    ∀ (insts : List DiffInstruction) (out : List Nat) (cso consumed : Nat),
      applyInsts B insts = some out →
      c.offset + consumed = min (max c.offset cso) (c.offset + c.len) →
      c.offset + c.len ≤ cso + out.length →
      applyInsts B (gifcLoop c insts cso consumed) =
        some ((out.drop (c.offset + consumed - cso)).take (c.len - consumed))
  | [], out, cso, consumed, happ, hinv, hwin => by
    have hout : out = [] := by
      simp only [applyInsts] at happ
      exact (Option.some_inj.1 happ).symm
    subst hout
    simp only [List.length_nil, Nat.add_zero] at hwin
    have hcons : consumed = c.len := by omega
    simp [applyInsts, hcons, List.take_nil, List.drop_nil]
  | si :: rest, out, cso, consumed, happ, hinv, hwin => by
    simp only [applyInsts, Option.bind_eq_bind] at happ
    rcases hch : applyInst B si with _ | ch <;> rw [hch] at happ
    · simp at happ
    rcases hrest : applyInsts B rest with _ | out2 <;> rw [hrest] at happ
    · simp at happ
    simp only [Option.some_bind, Option.pure_def, Option.some_inj] at happ
    subst happ
    have hchlen : ch.length = si.len := applyInst_length hch
    by_cases hcond : c.offset < cso + si.len ∧ c.offset + c.len > cso
    · -- consume branch
      have hsio : c.offset + consumed - cso ≤ si.len := by omega
      have hoc : c.offset + consumed = max c.offset cso := by omega
      set sio := c.offset + consumed - cso with hsiodef
      set bt := if si.len - sio ≤ c.len - consumed then si.len - sio
                else c.len - consumed with hbtdef
      have hbt : bt = min (si.len - sio) (c.len - consumed) := by
        rw [hbtdef]; split <;> omega
      -- the emitted instruction applies and produces the matching chunk
      have hemit : applyInst B (emitFromCopy si sio bt) =
          some ((ch.drop sio).take bt) := by
        cases si with
        | add bs =>
          simp only [applyInst] at hch
          cases hch
          rfl
        | copy cp =>
          have hsio2 : sio ≤ cp.len := by
            simpa only [DiffInstruction.len] using hsio
          have hbt2 : bt = min (cp.len - sio) (c.len - consumed) := by
            simpa only [DiffInstruction.len] using hbt
          have hb : cp.offset + cp.len ≤ B.length ∧
              ch = (B.drop cp.offset).take cp.len := by
            simp only [applyInst] at hch
            split at hch
            · exact ⟨by assumption, (Option.some_inj.1 hch).symm⟩
            · cases hch
          obtain ⟨hb1, rfl⟩ := hb
          simp only [emitFromCopy, applyInst]
          rw [if_pos (by omega)]
          rw [List.drop_take, List.drop_drop, List.take_take]
          congr 2
          omega
      -- invariant and window for the recursive call
      have hinv2 : c.offset + (consumed + bt) =
          min (max c.offset (cso + si.len)) (c.offset + c.len) := by omega
      have hwin2 : c.offset + c.len ≤ (cso + si.len) + out2.length := by
        simp only [List.length_append] at hwin
        omega
      have ih := gifcLoop_spec B c rest out2 (cso + si.len) (consumed + bt)
        hrest hinv2 hwin2
      simp only [gifcLoop, if_pos hcond]
      simp only [applyInsts, Option.bind_eq_bind, ← hsiodef, ← hbtdef, hemit,
        Option.some_bind, ih, Option.pure_def, Option.some_inj]
      -- list algebra: assemble the two chunks
      rw [List.drop_append_eq_append_drop, List.take_append_eq_append_take]
      have hd2 : c.offset + (consumed + bt) - (cso + si.len) = 0 := by omega
      have hsle : sio ≤ ch.length := by omega
      have e1 : (ch.drop sio).take (c.len - consumed) = (ch.drop sio).take bt := by
        rw [List.take_eq_take]
        simp only [List.length_drop, hchlen]
        omega
      have e2 : (out2.drop (sio - ch.length)).take
            (c.len - consumed - ((ch.drop sio)).length) =
          (out2.drop (c.offset + (consumed + bt) - (cso + si.len))).take
            (c.len - (consumed + bt)) := by
        rw [hd2, Nat.sub_eq_zero_of_le hsle, List.drop_zero,
          List.take_eq_take]
        simp only [List.length_drop, hchlen]
        omega
      rw [e2, e1]
    · by_cases hbrk : c.offset + c.len < cso
      · -- break: the window is already fully consumed
        have hcons : consumed = c.len := by omega
        simp only [gifcLoop, if_neg hcond, if_pos hbrk]
        simp [applyInsts, hcons]
      · -- skip: instruction entirely before the window
        have hinv2 : c.offset + consumed =
            min (max c.offset (cso + si.len)) (c.offset + c.len) := by omega
        have hwin2 : c.offset + c.len ≤ (cso + si.len) + out2.length := by
          simp only [List.length_append] at hwin
          omega
        have ih := gifcLoop_spec B c rest out2 (cso + si.len) consumed
          hrest hinv2 hwin2
        simp only [gifcLoop, if_neg hcond, if_neg hbrk]
        rw [ih]
        rw [List.drop_append_eq_append_drop]
        rcases Nat.lt_or_ge c.offset (cso + si.len) with hlt | hge
        · -- then the window ended at cso: nothing left to take
          have hcons : consumed = c.len := by omega
          simp [hcons]
        · -- window entirely after this chunk
          have hcz : consumed = 0 := by omega
          have hple : ch.length ≤ c.offset + consumed - cso := by omega
          have hnil : ch.drop (c.offset + consumed - cso) = [] :=
            List.drop_eq_nil_of_le hple
          rw [hnil, List.nil_append]
          have hidx : c.offset + consumed - (cso + si.len) =
              c.offset + consumed - cso - ch.length := by omega
          rw [hidx]

/-- C2: combining over a fixed source delta commutes with application. -/
theorem combineInsts_correct (B out1 : List Nat) (d1 : PackDiff)
    (h1 : applyInsts B d1.instructions = some out1) :
    ∀ (l : List DiffInstruction) (o : List Nat),
      applyInsts out1 l = some o →
      applyInsts B (combineInsts d1 l) = some o
  | [], o, h => by
    simpa [applyInsts] using h
  | .add bs :: rest, o, h => by
    simp only [applyInsts, Option.bind_eq_bind, applyInst] at h
    rcases hr : applyInsts out1 rest with _ | o2 <;> rw [hr] at h
    · simp at h
    simp only [Option.some_bind, Option.pure_def, Option.some_inj] at h
    subst h
    have ih := combineInsts_correct B out1 d1 h1 rest o2 hr
    simp [combineInsts, applyInsts, applyInst, ih]
  | .copy cp :: rest, o, h => by
    simp only [applyInsts, Option.bind_eq_bind] at h
    rcases hch : applyInst out1 (.copy cp) with _ | ch <;> rw [hch] at h
    · simp at h
    rcases hr : applyInsts out1 rest with _ | o2 <;> rw [hr] at h
    · simp at h
    simp only [Option.some_bind, Option.pure_def, Option.some_inj] at h
    subst h
    have ih := combineInsts_correct B out1 d1 h1 rest o2 hr
    simp only [applyInst] at hch
    split at hch <;> rename_i hb
    · cases hch
      have hg := gifcLoop_spec B cp d1.instructions out1 0 0 h1
        (by omega) (by omega)
      simp only [Nat.add_zero, Nat.sub_zero, Nat.zero_add] at hg
      simp only [combineInsts, get_instructions_from_copy]
      rw [applyInsts_append, hg, ih]
      simp
    · cases hch

/-- apply succeeds with `out` iff the instructions produce `out` and its
length matches the target length. -/
theorem apply_eq_some {d : PackDiff} {B out : List Nat} :
    d.apply B = some out ↔
      applyInsts B d.instructions = some out ∧ out.length = d.target_len := by
  unfold PackDiff.apply
  rcases h : applyInsts B d.instructions with _ | o
  · simp
  · change (if o.length = d.target_len then some o else none) = some out ↔ _
    by_cases hl : o.length = d.target_len
    · rw [if_pos hl]
      constructor
      · intro he
        cases he
        exact ⟨rfl, hl⟩
      · rintro ⟨he, _⟩
        cases he
        rfl
    · rw [if_neg hl]
      constructor
      · intro he
        cases he
      · rintro ⟨he, hlen⟩
        cases he
        exact absurd hlen hl

/-- C2: for deltas D1 (against base B) and D2 (against the output of D1),
the delta `D2.combine D1` applied to B yields the same bytes as applying
D2 to the result of applying D1 to B. -/
theorem C2_combine_apply (d1 d2 : PackDiff) (B out1 out2 : List Nat)
    (h1 : d1.apply B = some out1) (h2 : d2.apply out1 = some out2) :
    (d2.combine d1).apply B = some out2 := by
  obtain ⟨ha1, _⟩ := apply_eq_some.1 h1
  obtain ⟨ha2, hl2⟩ := apply_eq_some.1 h2
  have hc := combineInsts_correct B out1 d1 ha1 d2.instructions out2 ha2
  exact apply_eq_some.2 ⟨hc, hl2⟩

/-! ### Commit serializer theorems (C8) and contributor rewrite (C5) -/

/-- The serialized bytes have exactly the pre-computed capacity, whatever
the effective field values are. -/
theorem serializeCommit_length (tree : List Nat) (parents : List (List Nat))
    (author author_time committer committer_time remainder : List Nat) :
    (serializeCommit tree parents author author_time committer
        committer_time remainder).length =
      toBytesCapacity tree parents author author_time committer
        committer_time remainder := by
  have hsum : ∀ ps : List (List Nat),
      ((ps.map (fun parent => bParent ++ parent ++ [10])).map
        List.length).sum = (ps.map (fun parent => 8 + parent.length)).sum := by
    intro ps
    induction ps with
    | nil => rfl
    | cons p rest ih =>
      simp only [List.map_cons, List.sum_cons, ih, List.length_append]
      simp [bParent]
      omega
  simp only [serializeCommit, toBytesCapacity, List.length_append,
    List.length_flatten, hsum]
  simp [bTree, bAuthor, bCommitter]
  omega

/-- C8: for every commit and any set of overrides with at least one
override present, `to_bytes` produces exactly as many bytes as the
capacity pre-computed before any byte is written, so the debug assertion
`capacity == len` holds and the buffer is never reallocated. -/
theorem C8_to_bytes_capacity (c : CommitEditable)
    (h : c.has_changes = true) :
    c.to_bytes.length =
      toBytesCapacity
        (match c.tree with
          | some t => displayHex t
          | none => c.base.tree_line)
        (c.parentHashes.map displayHex)
        c.author_bytes c.base.author_time
        c.committer_bytes c.base.committer_time
        c.base.remainder := by
  unfold CommitEditable.to_bytes
  rw [if_neg (by simp [h])]
  exact serializeCommit_length _ _ _ _ _ _ _

/-- C8 witness: a concrete one-parent commit with an author override. -/
theorem C8_to_bytes_capacity_witness :
    (CommitEditable.mk
        (CommitBase.mk [1] [0] [97, 98] [[99, 100]] [65] [49] [66] [50] [77])
        none [none] (some [90, 90]) none).has_changes = true ∧
      (CommitEditable.mk
        (CommitBase.mk [1] [0] [97, 98] [[99, 100]] [65] [49] [66] [50] [77])
        none [none] (some [90, 90]) none).to_bytes.length =
      toBytesCapacity [97, 98]
        ((CommitEditable.mk
          (CommitBase.mk [1] [0] [97, 98] [[99, 100]] [65] [49] [66] [50] [77])
          none [none] (some [90, 90]) none).parentHashes.map displayHex)
        [90, 90] [49] [66] [50] [77] :=
  ⟨by decide,
    C8_to_bytes_capacity
      (CommitEditable.mk
        (CommitBase.mk [1] [0] [97, 98] [[99, 100]] [65] [49] [66] [50] [77])
        none [none] (some [90, 90]) none)
      (by decide)⟩

/-- zipWith of the parents accessor over an all-none override list yields
the parsed base parents. -/
theorem parentHashes_all_none :
    ∀ slices : List (List Nat),
      List.zipWith
        (fun slice o =>
          match o with
          | some p => p
          | none => hashFromSlice slice)
        slices (slices.map (fun _ => (none : Option GitHash))) =
      slices.map hashFromSlice
  | [] => rfl
  | s :: rest => by
    simp only [List.map_cons, List.zipWith_cons_cons,
      parentHashes_all_none rest]

/-- zipWith of the parents accessor over looked-up overrides yields the
remapped parents. -/
theorem parentHashes_lookup (rw : List (GitHash × GitHash)) :
    ∀ slices : List (List Nat),
      List.zipWith
        (fun slice o =>
          match o with
          | some p => p
          | none => hashFromSlice slice)
        slices (slices.map (fun s => mapLookup rw (hashFromSlice s))) =
      slices.map
        (fun s => (mapLookup rw (hashFromSlice s)).getD (hashFromSlice s))
  | [] => rfl
  | s :: rest => by
    simp only [List.map_cons, List.zipWith_cons_cons,
      parentHashes_lookup rw rest]
    rcases mapLookup rw (hashFromSlice s) with _ | p <;> rfl

/-- `any isSome` over a mapped option list. -/
theorem any_isSome_map {α β : Type} (f : α → Option β) :
    ∀ l : List α,
      (l.map f).any Option.isSome = l.any (fun x => (f x).isSome)
  | [] => rfl
  | x :: xs => by simp [any_isSome_map f xs]

/-- The rewrite loop body reduces to a record: author and committer
overrides are exactly the mapping results, parent overrides the
`rewritten_commits` lookups, base and tree untouched. -/
theorem rewriteOne_eq (M : List Nat → Option (List Nat))
    (rw : List (GitHash × GitHash)) (C : CommitBase) :
    rewriteOne M rw C =
      CommitEditable.mk C none
        (C.parents.map (fun s => mapLookup rw (hashFromSlice s)))
        (M C.author) (M C.committer) := by
  rcases ha : M C.author with _ | a <;> rcases hb : M C.committer with _ | b <;>
    · simp only [rewriteOne, CommitEditable.create,
        CommitEditable.author_bytes, CommitEditable.committer_bytes,
        CommitEditable.set_author, CommitEditable.set_committer,
        CommitEditable.parentHashes, Option.getD_none, ha, hb,
        parentHashes_all_none, List.map_map]
      rfl

/-- C5: one pass of the contributor-rewrite loop body.  The edited commit
carries `M.get(author(C), author(C))` as author and likewise for the
committer, parents remapped through `rewritten_commits`, all other fields
from the base commit; an override exists exactly when the mapping knows
the author or committer or a parent is in `rewritten_commits`; and the
loop serializes, re-hashes and records `old → new` exactly in that
case. -/
theorem C5_contributor_rewrite (M : List Nat → Option (List Nat))
    (hashC : List Nat → GitHash) (rw : List (GitHash × GitHash))
    (C : CommitBase) (rest : List CommitBase) :
    (rewriteOne M rw C).author_bytes = ((M C.author).getD C.author) ∧
    (rewriteOne M rw C).committer_bytes = ((M C.committer).getD C.committer) ∧
    (rewriteOne M rw C).parentHashes = C.parents.map
      (fun s => (mapLookup rw (hashFromSlice s)).getD (hashFromSlice s)) ∧
    (rewriteOne M rw C).base = C ∧
    (rewriteOne M rw C).tree = none ∧
    ((rewriteOne M rw C).has_changes = true ↔
      (M C.author).isSome = true ∨ (M C.committer).isSome = true ∨
        ∃ s ∈ C.parents,
          (mapLookup rw (hashFromSlice s)).isSome = true) ∧
    (contributorRewriteLoop M hashC rw (C :: rest) =
      if (rewriteOne M rw C).has_changes then
        ((C.hash, rewriteOne M rw C) ::
            (contributorRewriteLoop M hashC
              ((C.hash, hashC (rewriteOne M rw C).to_bytes) :: rw) rest).1,
          (contributorRewriteLoop M hashC
            ((C.hash, hashC (rewriteOne M rw C).to_bytes) :: rw) rest).2)
      else contributorRewriteLoop M hashC rw rest) := by
  rw [rewriteOne_eq]
  refine ⟨?_, ?_, ?_, rfl, rfl, ?_, ?_⟩
  · rcases M C.author with _ | a <;> rfl
  · rcases M C.committer with _ | b <;> rfl
  · simp only [CommitEditable.parentHashes, parentHashes_lookup]
  · simp only [CommitEditable.has_changes, Option.isSome_none,
      Bool.false_or, Bool.or_eq_true, any_isSome_map, List.any_eq_true]
    tauto
  · rw [← rewriteOne_eq M rw C]
    simp only [contributorRewriteLoop]

/-! ### Empty-commit prune theorems (C4, C9) -/

/-- Lookup in an association list, one step. -/
theorem mapLookup_cons (k v : GitHash) (m : List (GitHash × GitHash))
    (h : GitHash) :
    mapLookup ((k, v) :: m) h = if k = h then some v else mapLookup m h := by
  unfold mapLookup
  by_cases he : k = h <;> simp [List.find?_cons, he]

/-- A key present among the keys has a successful lookup. -/
theorem mapLookup_isSome_of_mem_keys {m : List (GitHash × GitHash)}
    {h : GitHash} (hmem : h ∈ m.map Prod.fst) :
    (mapLookup m h).isSome = true := by
  induction m with
  | nil => simp at hmem
  | cons kv rest ih =>
    rw [show kv = (kv.1, kv.2) from rfl, mapLookup_cons]
    simp only [List.map_cons, List.mem_cons] at hmem
    by_cases he : kv.1 = h
    · simp [he]
    · rcases hmem with he2 | hmem
      · exact absurd he2.symm he
      · simp [he, ih hmem]

/-- A key absent from the keys has no lookup result. -/
theorem mapLookup_eq_none_of_not_mem_keys {m : List (GitHash × GitHash)}
    {h : GitHash} (hmem : h ∉ m.map Prod.fst) :
    mapLookup m h = none := by
  induction m with
  | nil => rfl
  | cons kv rest ih =>
    rw [show kv = (kv.1, kv.2) from rfl, mapLookup_cons]
    simp only [List.map_cons, List.mem_cons] at hmem
    push_neg at hmem
    rw [if_neg (fun he => hmem.1 he.symm)]
    exact ih hmem.2

/-- Inversion of a prune decision: only a single-parent commit whose
resolved parent's recorded tree equals its own tree is pruned. -/
theorem parent_if_empty_prune_inv {c : PCommit}
    {rw trees : List (GitHash × GitHash)} {parent : GitHash}
    (hd : parent_if_empty c rw trees = .prune parent) :
    ∃ p, c.parents = [p] ∧ parent = (mapLookup rw p).getD p ∧
      mapLookup trees parent = some c.tree := by
  rcases hp : c.parents with _ | ⟨p, _ | ⟨q, rest⟩⟩
  · simp [parent_if_empty, hp] at hd
  · simp only [parent_if_empty, hp] at hd
    rcases hl : mapLookup trees ((mapLookup rw p).getD p) with _ | t <;>
      simp only [hl] at hd
    · cases hd
    · by_cases ht : t = c.tree
      · rw [if_pos ht] at hd
        cases hd
        rw [ht] at hl
        exact ⟨p, rfl, rfl, hl⟩
      · rw [if_neg ht] at hd
        simp at hd
  · simp [parent_if_empty, hp] at hd

/-- A panic in `parent_if_empty` requires a failed tree lookup for the
resolved parent of a single-parent commit. -/
theorem parent_if_empty_panic_inv {c : PCommit}
    {rw trees : List (GitHash × GitHash)}
    (hd : parent_if_empty c rw trees = .panicked) :
    ∃ p, c.parents = [p] ∧
      mapLookup trees ((mapLookup rw p).getD p) = none := by
  rcases hp : c.parents with _ | ⟨p, _ | ⟨q, rest⟩⟩
  · simp [parent_if_empty, hp] at hd
  · simp only [parent_if_empty, hp] at hd
    rcases hl : mapLookup trees ((mapLookup rw p).getD p) with _ | t <;>
      simp only [hl] at hd
    · exact ⟨p, rfl, hl⟩
    · by_cases ht : t = c.tree
      · rw [if_pos ht] at hd
        simp at hd
      · rw [if_neg ht] at hd
        simp at hd
  · simp [parent_if_empty, hp] at hd

/-- Every pruned hash belongs to a single-parent input commit. -/
theorem find_empty_pruned_single
    (hashC : GitHash → List GitHash → List Nat → GitHash) :
    ∀ (commits : List PCommit) (rw trees : List (GitHash × GitHash))
      (res : PruneResult),
      find_empty_commits hashC commits rw trees = some res →
      ∀ h ∈ res.pruned, ∃ c ∈ commits, c.hash = h ∧ c.parents.length = 1
  | [], rw, trees, res, heq, h, hmem => by
    simp only [find_empty_commits] at heq
    cases heq
    simp at hmem
  | c :: rest, rw, trees, res, heq, h, hmem => by
    simp only [find_empty_commits] at heq
    rcases hd : parent_if_empty c rw trees with parent | _ | _ <;>
      simp only [hd] at heq
    · rcases hr : find_empty_commits hashC rest ((c.hash, parent) :: rw)
        trees with _ | r <;> rw [hr] at heq
      · simp at heq
      · simp only [Option.map_some'] at heq
        cases heq
        simp only [List.mem_cons] at hmem
        rcases hmem with rfl | hmem
        · obtain ⟨p, hp, -, -⟩ := parent_if_empty_prune_inv hd
          exact ⟨c, List.mem_cons_self c rest, rfl, by rw [hp]; rfl⟩
        · obtain ⟨c2, hc2, he, hl⟩ :=
            find_empty_pruned_single hashC rest _ _ r hr h hmem
          exact ⟨c2, List.mem_cons_of_mem c hc2, he, hl⟩
    · by_cases hne : c.hash ≠ hashC c.tree
        (c.parents.map (fun p => (mapLookup rw p).getD p)) c.others
      · rw [if_pos hne] at heq
        rcases hr : find_empty_commits hashC rest
            ((c.hash, hashC c.tree
              (c.parents.map (fun p => (mapLookup rw p).getD p))
              c.others) :: rw)
            ((hashC c.tree
              (c.parents.map (fun p => (mapLookup rw p).getD p))
              c.others, c.tree) :: trees) with _ | r <;> rw [hr] at heq
        · simp at heq
        · simp only [Option.map_some'] at heq
          cases heq
          obtain ⟨c2, hc2, he, hl⟩ :=
            find_empty_pruned_single hashC rest _ _ r hr h hmem
          exact ⟨c2, List.mem_cons_of_mem c hc2, he, hl⟩
      · rw [if_neg hne] at heq
        obtain ⟨c2, hc2, he, hl⟩ :=
          find_empty_pruned_single hashC rest _ _ res heq h hmem
        exact ⟨c2, List.mem_cons_of_mem c hc2, he, hl⟩
    · cases heq

/-- C4: during empty-commit prune, a commit with exactly one parent whose
tree equals the resolved parent's recorded tree is recorded as mapping to
the resolved parent and is not emitted; and no commit with two or more
parents (nor a parentless one) is ever pruned. -/
theorem C4_prune_empty
    (hashC : GitHash → List GitHash → List Nat → GitHash) :
    (∀ (c : PCommit) (rest : List PCommit)
        (rw trees : List (GitHash × GitHash)) (p : GitHash),
      c.parents = [p] →
      mapLookup trees ((mapLookup rw p).getD p) = some c.tree →
      find_empty_commits hashC (c :: rest) rw trees =
        (find_empty_commits hashC rest
            ((c.hash, (mapLookup rw p).getD p) :: rw) trees).map
          (fun r => ⟨r.rewritten_commits, r.commit_trees,
            c.hash :: r.pruned, r.emitted⟩)) ∧
    (∀ (commits : List PCommit) (rw trees : List (GitHash × GitHash))
        (res : PruneResult),
      find_empty_commits hashC commits rw trees = some res →
      ∀ h ∈ res.pruned, ∃ c ∈ commits, c.hash = h ∧ c.parents.length = 1) := by
  constructor
  · intro c rest rw trees p hp hl
    simp [find_empty_commits, parent_if_empty, hp, hl]
  · exact find_empty_pruned_single hashC

/-- C4 witness: a two-commit chain where the child shares the root's tree
is pruned; part two applied to the same run. -/
theorem C4_prune_empty_witness :
    (find_empty_commits (fun _ _ _ => [0])
        [PCommit.mk [2] [7] [[1]] []] [] [([1], [7])] =
      (find_empty_commits (fun _ _ _ => [0]) []
          (([2], (mapLookup [] [1]).getD [1]) :: []) [([1], [7])]).map
        (fun r => ⟨r.rewritten_commits, r.commit_trees,
          [2] :: r.pruned, r.emitted⟩)) ∧
    (∀ h ∈ (PruneResult.mk [([2], [1])] [([1], [7])] [[2]] []).pruned,
      ∃ c ∈ [PCommit.mk [2] [7] [[1]] []], c.hash = h ∧
        c.parents.length = 1) :=
  ⟨(C4_prune_empty (fun _ _ _ => [0])).1 (PCommit.mk [2] [7] [[1]] []) []
      [] [([1], [7])] [1] (by decide) (by decide),
    (C4_prune_empty (fun _ _ _ => [0])).2 [PCommit.mk [2] [7] [[1]] []]
      [] [([1], [7])] (PruneResult.mk [([2], [1])] [([1], [7])] [[2]] [])
      (by decide)⟩

/-- A successful lookup means the key is among the keys. -/
theorem mem_keys_of_mapLookup_isSome {m : List (GitHash × GitHash)}
    {h : GitHash} (hs : (mapLookup m h).isSome = true) :
    h ∈ m.map Prod.fst := by
  by_contra hmem
  rw [mapLookup_eq_none_of_not_mem_keys hmem] at hs
  simp at hs

/-- The prune fold never panics when run over commits whose parents were
all processed before them: the resolved parent of every single-parent
commit is a key of `commit_trees` at the moment `parent_if_empty` indexes
it. -/
theorem find_empty_no_panic_aux
    (hashC : GitHash → List GitHash → List Nat → GitHash) :
    ∀ (commits : List PCommit) (processed : List GitHash)
      (rw trees : List (GitHash × GitHash)),
      (processed ++ commits.map PCommit.hash).Nodup →
      (∀ i (hi : i < commits.length), ∀ p ∈ (commits.get ⟨i, hi⟩).parents,
        p ∈ processed ++ (commits.take i).map PCommit.hash) →
      (∀ h ∈ processed, ((mapLookup rw h).getD h) ∈ trees.map Prod.fst) →
      (∀ kv ∈ rw, kv.1 ∈ processed) →
      (find_empty_commits hashC commits rw trees).isSome = true
  | [], _, _, _, _, _, _, _ => by simp [find_empty_commits]
  | c :: rest, processed, rw, trees, hfresh, htopo, hinv, hkeys => by
    have hcfresh : c.hash ∉ processed := by
      intro hc
      have hdisj := List.disjoint_of_nodup_append hfresh
      exact hdisj hc (by simp)
    have hfresh2 : ((processed ++ [c.hash]) ++ rest.map PCommit.hash).Nodup := by
      rw [List.append_assoc]
      simpa using hfresh
    have htopoR : ∀ i (hi : i < rest.length),
        ∀ p ∈ (rest.get ⟨i, hi⟩).parents,
          p ∈ (processed ++ [c.hash]) ++ (rest.take i).map PCommit.hash := by
      intro i hi p hp
      have hx := htopo (i + 1) (by simp only [List.length_cons]; omega) p
        (by simpa using hp)
      simpa [List.append_assoc] using hx
    have htopo0 : ∀ p ∈ c.parents, p ∈ processed := by
      intro p hp
      have hx := htopo 0 (by simp) p (by simpa using hp)
      simpa using hx
    have hkeysR : ∀ (extra : GitHash × GitHash) (kv : GitHash × GitHash),
        kv ∈ extra :: rw → kv.1 ∈ processed ++ [extra.1] := by
      intro extra kv hkv
      rcases List.mem_cons.1 hkv with rfl | hkv
      · simp
      · exact List.mem_append_left _ (hkeys kv hkv)
    rcases hd : parent_if_empty c rw trees with parent | _ | _
    · -- pruned: record commit → resolved parent
      obtain ⟨p, hp, hpar, hsome⟩ := parent_if_empty_prune_inv hd
      have hrec := find_empty_no_panic_aux hashC rest (processed ++ [c.hash])
        ((c.hash, parent) :: rw) trees hfresh2 htopoR ?hinv ?hkeys
      case hinv =>
        intro h hmem
        rcases List.mem_append.1 hmem with hmem | hmem
        · rw [mapLookup_cons, if_neg (fun he => hcfresh (by rw [he]; exact hmem))]
          exact hinv h hmem
        · simp only [List.mem_singleton] at hmem
          subst hmem
          rw [mapLookup_cons, if_pos rfl]
          exact mem_keys_of_mapLookup_isSome (by simp [hsome])
      case hkeys => exact hkeysR (c.hash, parent)
      simp only [find_empty_commits, hd]
      rcases hr : find_empty_commits hashC rest ((c.hash, parent) :: rw)
          trees with _ | r
      · rw [hr] at hrec; simp at hrec
      · simp
    · -- kept: remap parents, re-hash, record the new tree
      have hrec2 : ∀ rw2 : List (GitHash × GitHash),
          (∀ kv ∈ rw2, kv.1 ∈ processed ++ [c.hash]) →
          (∀ h ∈ processed ++ [c.hash], ((mapLookup rw2 h).getD h) ∈
            ((hashC c.tree (c.parents.map (fun p => (mapLookup rw p).getD p))
              c.others, c.tree) :: trees).map Prod.fst) →
          (find_empty_commits hashC rest rw2
            ((hashC c.tree (c.parents.map (fun p => (mapLookup rw p).getD p))
              c.others, c.tree) :: trees)).isSome = true := by
        intro rw2 hk2 hi2
        exact find_empty_no_panic_aux hashC rest (processed ++ [c.hash])
          rw2 _ hfresh2 htopoR hi2 hk2
      simp only [find_empty_commits, hd]
      by_cases hne : c.hash ≠ hashC c.tree
          (c.parents.map (fun p => (mapLookup rw p).getD p)) c.others
      · rw [if_pos hne]
        have hr2 := hrec2 ((c.hash, hashC c.tree
            (c.parents.map (fun p => (mapLookup rw p).getD p)) c.others) :: rw)
          (hkeysR _) ?hi
        case hi =>
          intro h hmem
          rcases List.mem_append.1 hmem with hmem | hmem
          · rw [mapLookup_cons, if_neg (fun he => hcfresh (by rw [he]; exact hmem))]
            exact List.mem_cons_of_mem _ (hinv h hmem)
          · simp only [List.mem_singleton] at hmem
            subst hmem
            rw [mapLookup_cons, if_pos rfl]
            simp
        rcases hr : find_empty_commits hashC rest _ _ with _ | r
        · rw [hr] at hr2; simp at hr2
        · simp
      · rw [if_neg hne]
        push_neg at hne
        apply hrec2 rw (fun kv hkv => List.mem_append_left _ (hkeys kv hkv))
        intro h hmem
        rcases List.mem_append.1 hmem with hmem | hmem
        · exact List.mem_cons_of_mem _ (hinv h hmem)
        · simp only [List.mem_singleton] at hmem
          subst hmem
          have hnone : mapLookup rw c.hash = none :=
            mapLookup_eq_none_of_not_mem_keys
              (fun hk => hcfresh (by
                rcases List.mem_map.1 hk with ⟨kv, hkv, hfst⟩
                rw [← hfst]
                exact hkeys kv hkv))
          rw [hnone]
          simp [← hne]
    · -- the panic cannot happen: the sole parent was processed earlier
      obtain ⟨p, hp, hnone⟩ := parent_if_empty_panic_inv hd
      have hpmem : p ∈ processed := htopo0 p (by rw [hp]; simp)
      have hmemk := hinv p hpmem
      have hs := mapLookup_isSome_of_mem_keys hmemk
      rw [hnone] at hs
      simp at hs

/-- C9: during empty-commit prune over commits in topological order (each
commit's parents occur as hashes of earlier commits), the parent obtained
by resolving a sole parent through `rewritten_commits` is always a key of
`commit_trees`, so the direct indexing in `parent_if_empty` never fails
and the whole run never panics. -/
theorem C9_prune_no_panic
    (hashC : GitHash → List GitHash → List Nat → GitHash)
    (commits : List PCommit)
    (hnodup : (commits.map PCommit.hash).Nodup)
    (htopo : ∀ i (hi : i < commits.length),
      ∀ p ∈ (commits.get ⟨i, hi⟩).parents,
        p ∈ (commits.take i).map PCommit.hash) :
    (find_empty_commits hashC commits [] []).isSome = true := by
  apply find_empty_no_panic_aux hashC commits [] [] []
  · simpa using hnodup
  · intro i hi p hp
    simpa using htopo i hi p hp
  · intro h hmem
    simp at hmem
  · intro kv hkv
    simp at hkv

/-- C9 witness: a two-commit topologically ordered chain, evaluated. -/
theorem C9_prune_no_panic_witness :
    ((([PCommit.mk [1] [7] [] [], PCommit.mk [2] [7] [[1]] []].map
        PCommit.hash).Nodup) ∧
      (find_empty_commits (fun _ _ _ => [9])
        [PCommit.mk [1] [7] [] [], PCommit.mk [2] [7] [[1]] []] []
        []).isSome = true) :=
  ⟨by decide,
    C9_prune_no_panic (fun _ _ _ => [9])
      [PCommit.mk [1] [7] [] [], PCommit.mk [2] [7] [[1]] []]
      (by decide)
      (by
        intro i hi p hp
        simp only [List.length_cons, List.length_nil] at hi
        interval_cases i <;> simp_all)⟩

/-! ### Reference store theorems (C6, C7) -/

/-- `rewrite_ref` emits no file removal on any branch. -/
theorem rewrite_ref_ops_no_remove (hashTag : List Nat → GitHash)
    (tagSetObject : List Nat → GitHash → List Nat)
    (repoPath : List Nat) (rw : List (GitHash × GitHash))
    (readObj : List Nat → GitObjectR) (refName refTarget : List Nat)
    (ops : List FsOp)
    (h : rewrite_ref_ops hashTag tagSetObject repoPath rw readObj
      refName refTarget = some ops) :
    ∀ pa, FsOp.removeFile pa ∉ ops := by
  intro pa hmem
  unfold rewrite_ref_ops at h
  rcases hro : readObj refTarget with _ | th | ⟨tk, objHash, origBytes, tagHash⟩
  · simp only [hro] at h
    rcases hl : mapLookup rw (hashFromSlice refTarget) with _ | nt <;>
      simp only [hl] at h <;> cases h <;> simp at hmem
  · simp only [hro] at h
    cases h
    simp at hmem
  · rcases tk
    · simp only [hro] at h
      rcases hl : mapLookup rw objHash with _ | newObj <;>
        simp only [hl] at h <;> cases h <;> simp at hmem
    · simp only [hro] at h
      cases h
      simp at hmem
    · simp only [hro] at h
      cases h

/-- `GitRef::update` emits no file removal. -/
theorem update_ops_no_remove (hashTag : List Nat → GitHash)
    (tagSetObject : List Nat → GitHash → List Nat)
    (repoPath : List Nat) (rw : List (GitHash × GitHash))
    (readObj : List Nat → GitObjectR) :
    ∀ (refs : List GitRef) (ops : List FsOp),
      GitRef.update_ops hashTag tagSetObject repoPath rw readObj refs =
        some ops →
      ∀ pa, FsOp.removeFile pa ∉ ops
  | [], ops, h => by
    cases h
    intro pa hmem
    simp at hmem
  | r :: rest, ops, h => by
    simp only [GitRef.update_ops, Option.bind_eq_bind] at h
    rcases h1 : rewrite_ref_ops hashTag tagSetObject repoPath rw readObj
        r.get_name r.get_target with _ | ops1 <;> rw [h1] at h
    · cases h
    rcases h2 : GitRef.update_ops hashTag tagSetObject repoPath rw readObj
        rest with _ | ops2 <;> rw [h2] at h
    · cases h
    simp only [Option.some_bind, Option.pure_def, Option.some_inj] at h
    subst h
    intro pa hmem
    rcases List.mem_append.1 hmem with hmem | hmem
    · exact rewrite_ref_ops_no_remove hashTag tagSetObject repoPath rw
        readObj r.get_name r.get_target ops1 h1 pa hmem
    · exact update_ops_no_remove hashTag tagSetObject repoPath rw readObj
        rest ops2 h2 pa hmem

/-- A file that existed before stays in existence when no operation
removes any file. -/
theorem fileExistsAfter_true_of_no_remove (path : List Nat) :
    ∀ ops : List FsOp, (∀ pa, FsOp.removeFile pa ∉ ops) →
      fileExistsAfter true ops path = true
  | [], _ => rfl
  | op :: rest, hno => by
    have hstep : (fun ex op =>
        match op with
        | FsOp.removeFile q => if q = path then false else ex
        | FsOp.writeFile q _ => if q = path then true else ex
        | FsOp.createDir _ => ex) true op = true := by
      rcases op with q | ⟨q, content⟩ | q
      · rfl
      · by_cases hq : q = path <;> simp [hq]
      · exact absurd (List.mem_cons_self _ _) (fun hc => hno q hc)
    show fileExistsAfter ((fun ex op => _) true op) rest path = true
    rw [hstep]
    exact fileExistsAfter_true_of_no_remove path rest
      (fun pa hmem => hno pa (List.mem_cons_of_mem _ hmem))

/-- C6 (code behavior): `GitRef::update` performs no file deletion — the
packed-refs removal is an unimplemented `// TODO delete packed refs` — so
any file that existed before the update, the packed-refs file included,
still exists after all refs are rewritten.  The claimed post-condition
(packed-refs no longer exists) is false. -/
theorem C6_packed_refs_survives_update (hashTag : List Nat → GitHash)
    (tagSetObject : List Nat → GitHash → List Nat)
    (repoPath : List Nat) (rw : List (GitHash × GitHash))
    (readObj : List Nat → GitObjectR) (refs : List GitRef)
    (ops : List FsOp)
    (h : GitRef.update_ops hashTag tagSetObject repoPath rw readObj refs =
      some ops)
    (path : List Nat) :
    fileExistsAfter true ops path = true :=
  fileExistsAfter_true_of_no_remove path ops
    (update_ops_no_remove hashTag tagSetObject repoPath rw readObj refs ops h)

/-- C6 witness: a one-ref repository whose packed-refs file survives. -/
theorem C6_packed_refs_survives_update_witness :
    (GitRef.update_ops (fun _ => []) (fun b _ => b) [114] []
        (fun _ => GitObjectR.commitObj) [GitRef.simple [97] [48]] =
      some [FsOp.createDir (dirOf ([114] ++ [47] ++ [97]))]) ∧
    fileExistsAfter true [FsOp.createDir (dirOf ([114] ++ [47] ++ [97]))]
      [112] = true :=
  ⟨by decide,
    C6_packed_refs_survives_update (fun _ => []) (fun b _ => b) [114] []
      (fun _ => GitObjectR.commitObj) [GitRef.simple [97] [48]]
      [FsOp.createDir (dirOf ([114] ++ [47] ++ [97]))] (by decide) [112]⟩

/-- C7 (code behavior): when a name occurs both loose and packed but the
two entries are not adjacent in the loose-then-packed list, `dedup_by`
(which only merges consecutive elements) keeps both: `read_all` returns
two entries for that name, refuting the one-entry-per-name claim. -/
theorem C7_duplicate_name_survives :
    GitRef.read_all [GitRef.simple [97] [49], GitRef.simple [98] [50]]
        (some [GitRef.simple [97] [51]]) =
      [GitRef.simple [97] [49], GitRef.simple [98] [50],
        GitRef.simple [97] [51]] ∧
    ((GitRef.read_all [GitRef.simple [97] [49], GitRef.simple [98] [50]]
        (some [GitRef.simple [97] [51]])).filter
      (fun r => r.get_name == [97])).length = 2 := by
  constructor <;> rfl

/-! ### Pack reader theorems (C3) -/

/-- The OFS_DELTA chain loop stops only at a non-OFS_DELTA entry. -/
theorem restoreLoop_type_ne6 (unpack : PackObject → Nat → List Nat)
    (pack : List Nat) :
    ∀ (fuel : Nat) (pd : PackDiff) (po : PackObject)
      (out : List Nat × PackObject),
      restoreLoop unpack pack fuel pd po = some out →
      out.2.object_type ≠ 6
  | 0, pd, po, out, h => by cases h
  | fuel + 1, pd, po, out, h => by
    simp only [restoreLoop] at h
    by_cases h6 : po.object_type = 6
    · rw [if_pos h6] at h
      simp only [Option.bind_eq_bind] at h
      rcases h1 : PackDiff.create unpack pack po with _ | td <;> rw [h1] at h
      · cases h
      simp only [Option.some_bind] at h
      rcases h2 : PackObject.create pack
          (po.offset - (pd.combine td).negative_offset) with _ | po2 <;>
        rw [h2] at h
      · cases h
      simp only [Option.some_bind] at h
      exact restoreLoop_type_ne6 unpack pack fuel (pd.combine td) po2 out h
    · rw [if_neg h6] at h
      simp only [Option.bind_eq_bind] at h
      rcases h1 : pd.apply (unpack po 0) with _ | bytes <;> rw [h1] at h
      · cases h
      simp only [Option.some_bind, Option.pure_def, Option.some_inj] at h
      subst h
      exact h6

/-- The reader never returns an entry of delta type 6: delta chains are
resolved down to their base entry. -/
theorem read_git_object_bytes_type_ne6 (unpack : PackObject → Nat → List Nat)
    (pack : List Nat) (offsets : GitHash → Option Nat) :
    ∀ (fuel : Nat) (h : GitHash) (out : List Nat × PackObject),
      read_git_object_bytes unpack pack offsets fuel h = some out →
      out.2.object_type ≠ 6
  | 0, h, out, heq => by cases heq
  | fuel + 1, h, out, heq => by
    simp only [read_git_object_bytes, Option.bind_eq_bind] at heq
    rcases ho : offsets h with _ | offset <;> rw [ho] at heq
    · cases heq
    simp only [Option.some_bind] at heq
    rcases hp : PackObject.create pack offset with _ | po <;> rw [hp] at heq
    · cases heq
    simp only [Option.some_bind] at heq
    by_cases h6 : po.object_type = 6
    · rw [if_pos h6] at heq
      simp only [restore_diff_object_bytes, Option.bind_eq_bind] at heq
      rcases h1 : PackDiff.create unpack pack po with _ | pd <;> rw [h1] at heq
      · cases heq
      simp only [Option.some_bind] at heq
      rcases h2 : PackObject.create pack (po.offset - pd.negative_offset)
          with _ | po2 <;> rw [h2] at heq
      · cases heq
      simp only [Option.some_bind] at heq
      exact restoreLoop_type_ne6 unpack pack _ pd po2 out heq
    · rw [if_neg h6] at heq
      by_cases h7 : po.object_type = 7
      · rw [if_pos h7] at heq
        by_cases hsl : po.offset + po.header_len + 20 ≤ pack.length
        · rw [if_pos hsl] at heq
          rcases hb : read_git_object_bytes unpack pack offsets fuel
              ((pack.drop (po.offset + po.header_len)).take 20) with _ | base <;>
            rw [hb] at heq
          · cases heq
          simp only [Option.some_bind] at heq
          rcases hd : PackDiff.create_for_ref unpack po with _ | pd <;>
            rw [hd] at heq
          · cases heq
          simp only [Option.some_bind] at heq
          rcases ha : pd.apply base.1 with _ | bytes <;> rw [ha] at heq
          · cases heq
          simp only [Option.some_bind, Option.pure_def, Option.some_inj] at heq
          subst heq
          exact read_git_object_bytes_type_ne6 unpack pack offsets fuel _
            base hb
        · rw [if_neg hsl] at heq
          cases heq
      · rw [if_neg h7] at heq
        simp only [Option.pure_def, Option.some_inj] at heq
        subst heq
        exact h6

/-- C3: a pack entry of type code 7 is resolved by reading the 20 bytes
after the entry header as the base OID, recursively fetching that base's
payload, parsing the delta stream behind the OID and applying it, and the
returned PackObject is the one of the recursive base fetch — whose type
is the ultimate non-delta base's type, the reader never returning a
delta-typed object. -/
theorem C3_ref_delta (unpack : PackObject → Nat → List Nat)
    (pack : List Nat) (offsets : GitHash → Option Nat) :
    (∀ (fuel : Nat) (h : GitHash) (offset : Nat) (po : PackObject)
        (baseBytes : List Nat) (basePo : PackObject) (pd : PackDiff)
        (outBytes : List Nat),
      offsets h = some offset →
      PackObject.create pack offset = some po →
      po.object_type = 7 →
      po.offset + po.header_len + 20 ≤ pack.length →
      read_git_object_bytes unpack pack offsets fuel
          ((pack.drop (po.offset + po.header_len)).take 20) =
        some (baseBytes, basePo) →
      PackDiff.create_for_ref unpack po = some pd →
      pd.apply baseBytes = some outBytes →
      read_git_object_bytes unpack pack offsets (fuel + 1) h =
        some (outBytes, basePo)) ∧
    (∀ (fuel : Nat) (h : GitHash) (out : List Nat × PackObject),
      read_git_object_bytes unpack pack offsets fuel h = some out →
      out.2.object_type ≠ 6) := by
  constructor
  · intro fuel h offset po baseBytes basePo pd outBytes hoff hpo htype hsl
      hbase hdiff happly
    simp only [read_git_object_bytes, hoff, hpo, Option.bind_eq_bind,
      Option.some_bind]
    rw [if_neg (by rw [htype]; decide), if_pos htype, if_pos hsl]
    simp only [hbase, hdiff, Option.bind_eq_bind, Option.some_bind, happly]
    rfl
  · exact read_git_object_bytes_type_ne6 unpack pack offsets

/-- C3 witness: a two-entry pack — a plain commit at offset 0 and a ref
delta at offset 10 whose base OID bytes are the commit's — fully
evaluated. -/
theorem C3_ref_delta_witness :
    read_git_object_bytes
      (fun po _ => if po.offset = 0 then [10, 11, 12] else [3, 2, 2, 99, 100])
      ([19, 0, 0, 0, 0, 0, 0, 0, 0, 0, 117] ++ List.replicate 20 0)
      (fun g => if g = List.replicate 20 0 then some 0
        else if g = List.replicate 20 5 then some 10 else none)
      2 (List.replicate 20 5) =
      some ([99, 100], PackObject.mk 1 0 1 3) :=
  (C3_ref_delta
    (fun po _ => if po.offset = 0 then [10, 11, 12] else [3, 2, 2, 99, 100])
    ([19, 0, 0, 0, 0, 0, 0, 0, 0, 0, 117] ++ List.replicate 20 0)
    (fun g => if g = List.replicate 20 0 then some 0
      else if g = List.replicate 20 5 then some 10 else none)).1
    1 (List.replicate 20 5) 10 (PackObject.mk 7 10 1 5) [10, 11, 12]
    (PackObject.mk 1 0 1 3) (PackDiff.mk 2 0 [.add [99, 100]]) [99, 100]
    (by decide) (by decide) (by decide) (by decide) (by decide) (by decide)
    (by decide)

/-- C2 witness: a concrete two-delta chain, evaluated. -/
theorem C2_combine_apply_witness :
    (PackDiff.apply
        (PackDiff.mk 4 5 [.copy (CopyInstruction.mk 0 3), .add [9]])
        [1, 2, 3] = some [1, 2, 3, 9]) ∧
    (PackDiff.apply
        (PackDiff.mk 3 7 [.add [7], .copy (CopyInstruction.mk 2 2)])
        [1, 2, 3, 9] = some [7, 3, 9]) ∧
    (PackDiff.apply
      (PackDiff.combine
        (PackDiff.mk 3 7 [.add [7], .copy (CopyInstruction.mk 2 2)])
        (PackDiff.mk 4 5 [.copy (CopyInstruction.mk 0 3), .add [9]]))
      [1, 2, 3] = some [7, 3, 9]) :=
  ⟨by decide, by decide,
    C2_combine_apply
      (PackDiff.mk 4 5 [.copy (CopyInstruction.mk 0 3), .add [9]])
      (PackDiff.mk 3 7 [.add [7], .copy (CopyInstruction.mk 2 2)])
      [1, 2, 3] [1, 2, 3, 9] [7, 3, 9] (by decide) (by decide)⟩

/-- Sum over a filtered list shrinks when the predicate tightens. -/
theorem filterSum_mono {H : Type} (f : H → Nat) (U : List H) (p q : H → Bool)
    (himp : ∀ a, p a → q a) :
    ((U.filter p).map f).sum ≤ ((U.filter q).map f).sum :=
  ((List.monotone_filter_right U himp).map f).sum_le_sum
    (fun a _ => Nat.zero_le a)

/-- Removing one element from the filtered set removes its contribution. -/
theorem filterSum_remove {H : Type} [DecidableEq H] (f : H → Nat)
    (U : List H) (hU : U.Nodup) (p q : H → Bool) (x : H) (hx : x ∈ U)
    (hpx : p x = true) (hq : ∀ a, q a = (p a && a != x)) :
    ((U.filter q).map f).sum + f x = ((U.filter p).map f).sum := by
  have hxf : x ∈ U.filter p := List.mem_filter.2 ⟨hx, hpx⟩
  have hnf : (U.filter p).Nodup := hU.filter p
  have hq2 : U.filter q = (U.filter p).filter (fun a => a != x) := by
    rw [List.filter_filter]
    exact List.filter_congr (fun a _ => by rw [hq a, Bool.and_comm])
  have herase : (U.filter p).erase x = (U.filter p).filter (fun a => a != x) :=
    hnf.erase_eq_filter x
  have hperm : List.Perm (U.filter p) (x :: (U.filter p).erase x) :=
    List.perm_cons_erase hxf
  have hsum := List.Perm.sum_eq (hperm.map f)
  rw [List.map_cons, List.sum_cons] at hsum
  rw [hq2, ← herase]
  omega

theorem fifoAux {H : Type} [DecidableEq H] (lookup : H → FCommit H)
    (roots : List H) (U : List H) (rank : H → Nat)
    (hUnodup : U.Nodup)
    (hhash : ∀ h ∈ U, (lookup h).hash = h)
    (hclosed : ∀ h ∈ U, ∀ p ∈ (lookup h).parents, p ∈ U)
    (hrank : ∀ h ∈ U, ∀ p ∈ (lookup h).parents, rank p < rank h) :
    ∀ (fuel : Nat) (s : FifoState H),
      fifoPhi lookup U s ≤ fuel →
      (∀ c ∈ s.commits, c = lookup c.hash ∧ c.hash ∈ U ∧
        Reachable lookup roots c.hash) →
      (∀ h ∈ s.processed_commits, h ∈ U ∧ Reachable lookup roots h) →
      (∀ h ∈ s.parents_seen, h ∈ U) →
      s.processed_commits.Nodup →
      s.parents_seen.Nodup →
      (∀ h ∈ s.processed_commits, ∀ p ∈ (lookup h).parents,
        p ∈ s.processed_commits) →
      (∀ g ∈ s.parents_seen, g ∉ s.processed_commits →
        ∃ i, ∃ hi : i < s.commits.length,
          (s.commits.get ⟨i, hi⟩).hash = g ∧
          (∀ j (hj : j < i),
            rank (s.commits.get ⟨j, Nat.lt_trans hj hi⟩).hash < rank g) ∧
          (∀ p ∈ (lookup g).parents, p ∈ s.processed_commits ∨
            ∃ j, ∃ hj : j < i,
              (s.commits.get ⟨j, Nat.lt_trans hj hi⟩).hash = p)) →
      ∃ E, fifoRun lookup fuel s = some E ∧
        (∀ c ∈ E, c = lookup c.hash ∧ c.hash ∈ U ∧
          Reachable lookup roots c.hash ∧ c.hash ∉ s.processed_commits) ∧
        (E.map FCommit.hash).Nodup ∧
        (∀ c ∈ s.commits, c.hash ∈ s.processed_commits ∨
          c.hash ∈ E.map FCommit.hash) ∧
        (∀ i (hi : i < E.length), ∀ p ∈ (E.get ⟨i, hi⟩).parents,
          p ∈ s.processed_commits ∨
            ∃ j, ∃ hj : j < i,
              (E.get ⟨j, Nat.lt_trans hj hi⟩).hash = p) := by
  intro fuel
  induction fuel with
  | zero =>
    intro s hphi hstack hproc hseen hprocnd hseennd hclosedP hshelf
    have hlen : s.commits.length = 0 := by
      unfold fifoPhi at hphi
      omega
    have hnil : s.commits = [] := List.length_eq_zero.1 hlen
    refine ⟨[], ?_, ?_, ?_, ?_, ?_⟩
    · simp [fifoRun, hnil]
    · intro c hc
      simp at hc
    · simp
    · rw [hnil]
      intro c hc
      simp at hc
    · intro i hi
      simp at hi
  | succ fuel ih =>
    intro s
    obtain ⟨stack, proc, seen⟩ := s
    intro hphi hstack hproc hseen hprocnd hseennd hclosedP hshelf
    rcases stack with _ | ⟨c, rest⟩
    · refine ⟨[], ?_, ?_, ?_, ?_, ?_⟩
      · simp [fifoRun]
      · intro c hc
        simp at hc
      · simp
      · intro c hc
        simp at hc
      · intro i hi
        simp at hi
    · obtain ⟨hc_lookup, hcU, hcReach⟩ := hstack c (by simp)
      by_cases hproc_c : c.hash ∈ proc
      · -- CASE 1: duplicate of an already emitted commit
        have hphi' : fifoPhi lookup U ⟨rest, proc, seen.erase c.hash⟩ ≤ fuel := by
          have hflt : U.filter (fun a =>
                decide (a ∉ seen.erase c.hash ∧ a ∉ proc)) =
              U.filter (fun a => decide (a ∉ seen ∧ a ∉ proc)) := by
            apply List.filter_congr
            intro a _
            by_cases hac : a = c.hash
            · subst hac
              simp [hproc_c]
            · simp [List.mem_erase_of_ne hac]
          unfold fifoPhi at hphi ⊢
          simp only [List.length_cons] at hphi
          simp only [hflt]
          omega
        obtain ⟨E, hrun, hp1, hp2, hp3, hp4⟩ :=
          ih ⟨rest, proc, seen.erase c.hash⟩ hphi'
            (fun x hx => hstack x (List.mem_cons_of_mem c hx))
            hproc
            (fun h hh => hseen h (List.mem_of_mem_erase hh))
            hprocnd
            (hseennd.erase c.hash)
            hclosedP
            (by
              intro g hg hgp
              have hgseen : g ∈ seen := List.mem_of_mem_erase hg
              obtain ⟨i, hi, hih, hirank, hipar⟩ := hshelf g hgseen hgp
              have hipos : 0 < i := by
                rcases Nat.eq_zero_or_pos i with rfl | hp
                · exfalso
                  apply hgp
                  simp only [List.get] at hih
                  rw [← hih]
                  exact hproc_c
                · exact hp
              refine ⟨i - 1, by simp at hi ⊢; omega, ?_, ?_, ?_⟩
              · have : rest.get ⟨i - 1, by simp at hi; omega⟩ =
                    (c :: rest).get ⟨i, hi⟩ := by
                  rcases i with _ | i2
                  · omega
                  · simp
                rw [this, hih]
              · intro j hj
                have hj1 : j + 1 < i := by omega
                have := hirank (j + 1) hj1
                simpa using this
              · intro p hp
                rcases hipar p hp with hmem | ⟨j, hj, hjh⟩
                · exact Or.inl hmem
                · rcases j with _ | j2
                  · exact Or.inl (by
                      simp only [List.get] at hjh
                      rw [← hjh]
                      exact hproc_c)
                  · refine Or.inr ⟨j2, by omega, ?_⟩
                    simpa using hjh)
        refine ⟨E, ?_, hp1, hp2, ?_, hp4⟩
        · simp only [fifoRun]
          rw [if_pos hproc_c]
          exact hrun
        · intro x hx
          rcases List.mem_cons.1 hx with rfl | hx
          · exact Or.inl hproc_c
          · exact hp3 x hx
      · by_cases hcond : c.hash ∈ seen ∨ c.parents = []
        · -- CASE 2: emit
          have hparproc : ∀ p ∈ c.parents, p ∈ proc := by
            rcases hcond with hseen_c | hnopar
            · obtain ⟨i, hi, hih, hirank, hipar⟩ :=
                hshelf c.hash hseen_c hproc_c
              rcases Nat.eq_zero_or_pos i with rfl | hipos
              · intro p hp
                have hp2 : p ∈ (lookup c.hash).parents := by
                  rw [← hc_lookup]
                  exact hp
                rcases hipar p hp2 with hmem | ⟨j, hj, -⟩
                · exact hmem
                · omega
              · exfalso
                have h0 := hirank 0 hipos
                simp only [List.get] at h0
                exact absurd h0 (lt_irrefl _)
            · intro p hp
              rw [hnopar] at hp
              simp at hp
          have hphi' : fifoPhi lookup U
              ⟨rest, c.hash :: proc, seenInsert seen c.hash⟩ ≤ fuel := by
            have hmono := filterSum_mono
              (fun h => 1 + (lookup h).parents.length) U
              (fun a => decide (a ∉ seenInsert seen c.hash ∧
                a ∉ c.hash :: proc))
              (fun a => decide (a ∉ seen ∧ a ∉ proc))
              (by
                intro a ha
                simp only [decide_eq_true_eq] at ha ⊢
                constructor
                · intro hmem
                  apply ha.1
                  unfold seenInsert
                  split
                  · exact hmem
                  · exact List.mem_cons_of_mem _ hmem
                · intro hmem
                  exact ha.2 (List.mem_cons_of_mem _ hmem))
            unfold fifoPhi at hphi ⊢
            dsimp only at hphi ⊢
            simp only [List.length_cons] at hphi
            omega
          obtain ⟨E', hrun, hp1, hp2, hp3, hp4⟩ :=
            ih ⟨rest, c.hash :: proc, seenInsert seen c.hash⟩ hphi'
              (fun x hx => hstack x (List.mem_cons_of_mem c hx))
              (by
                intro h hh
                rcases List.mem_cons.1 hh with rfl | hh
                · exact ⟨hcU, hcReach⟩
                · exact hproc h hh)
              (by
                intro h hh
                unfold seenInsert at hh
                split at hh
                · exact hseen h hh
                · rcases List.mem_cons.1 hh with rfl | hh
                  · exact hcU
                  · exact hseen h hh)
              (List.nodup_cons.2 ⟨hproc_c, hprocnd⟩)
              (by
                unfold seenInsert
                split
                · exact hseennd
                · rename_i hns
                  exact List.nodup_cons.2 ⟨hns, hseennd⟩)
              (by
                intro h hh p hp
                rcases List.mem_cons.1 hh with rfl | hh
                · apply List.mem_cons_of_mem
                  apply hparproc
                  rw [← hc_lookup] at hp
                  exact hp
                · exact List.mem_cons_of_mem _ (hclosedP h hh p hp))
              (by
                intro g hg hgproc
                have hgne : g ≠ c.hash := by
                  intro he
                  exact hgproc (by rw [he]; exact List.mem_cons_self _ _)
                have hgseen : g ∈ seen := by
                  unfold seenInsert at hg
                  split at hg
                  · exact hg
                  · rcases List.mem_cons.1 hg with rfl | hg
                    · exact absurd rfl hgne
                    · exact hg
                have hgproc2 : g ∉ proc :=
                  fun hm => hgproc (List.mem_cons_of_mem _ hm)
                obtain ⟨i, hi, hih, hirank, hipar⟩ :=
                  hshelf g hgseen hgproc2
                have hipos : 0 < i := by
                  rcases Nat.eq_zero_or_pos i with rfl | hp2
                  · exfalso
                    simp only [List.get] at hih
                    exact hgne hih.symm
                  · exact hp2
                refine ⟨i - 1, by simp at hi ⊢; omega, ?_, ?_, ?_⟩
                · have he : rest.get ⟨i - 1, by simp at hi; omega⟩ =
                      (c :: rest).get ⟨i, hi⟩ := by
                    rcases i with _ | i2
                    · omega
                    · simp
                  rw [he, hih]
                · intro j hj
                  have hj1 : j + 1 < i := by omega
                  have := hirank (j + 1) hj1
                  simpa using this
                · intro p hp
                  rcases hipar p hp with hmem | ⟨j, hj, hjh⟩
                  · exact Or.inl (List.mem_cons_of_mem _ hmem)
                  · rcases j with _ | j2
                    · refine Or.inl ?_
                      simp only [List.get] at hjh
                      rw [← hjh]
                      exact List.mem_cons_self _ _
                    · exact Or.inr ⟨j2, by omega, by simpa using hjh⟩)
          refine ⟨c :: E', ?_, ?_, ?_, ?_, ?_⟩
          · simp only [fifoRun]
            rw [if_neg hproc_c, if_pos hcond, hrun]
            rfl
          · intro x hx
            rcases List.mem_cons.1 hx with rfl | hx
            · exact ⟨hc_lookup, hcU, hcReach, hproc_c⟩
            · obtain ⟨ha, hb, hc2, hd⟩ := hp1 x hx
              exact ⟨ha, hb, hc2, fun hm => hd (List.mem_cons_of_mem _ hm)⟩
          · simp only [List.map_cons]
            refine List.nodup_cons.2 ⟨?_, hp2⟩
            intro hmem
            rcases List.mem_map.1 hmem with ⟨x, hx, hxh⟩
            obtain ⟨-, -, -, hd⟩ := hp1 x hx
            exact hd (by rw [hxh]; exact List.mem_cons_self _ _)
          · intro x hx
            rcases List.mem_cons.1 hx with rfl | hx
            · exact Or.inr (by simp)
            · rcases hp3 x hx with hmem | hmem
              · rcases List.mem_cons.1 hmem with he | hmem
                · exact Or.inr (by simp [he])
                · exact Or.inl hmem
              · refine Or.inr ?_
                simp only [List.map_cons]
                exact List.mem_cons_of_mem _ hmem
          · intro i hi p hp
            rcases i with _ | i2
            · have hp2 : p ∈ c.parents := by simpa using hp
              exact Or.inl (hparproc p hp2)
            · have hi2 : i2 < E'.length := by simpa using hi
              have hpe : p ∈ (E'.get ⟨i2, hi2⟩).parents := by simpa using hp
              rcases hp4 i2 hi2 p hpe with hmem | ⟨j, hj, hjh⟩
              · rcases List.mem_cons.1 hmem with rfl | hmem
                · exact Or.inr ⟨0, by omega, rfl⟩
                · exact Or.inl hmem
              · exact Or.inr ⟨j + 1, by omega, by simpa using hjh⟩
        · -- CASE 3: push unprocessed parents on top of the stack
          have hcseen : c.hash ∉ seen := fun hm => hcond (Or.inl hm)
          have hparU : ∀ p ∈ c.parents, p ∈ U := by
            intro p hp
            apply hclosed c.hash hcU
            rw [← hc_lookup]
            exact hp
          have hparrank : ∀ p ∈ c.parents, rank p < rank c.hash := by
            intro p hp
            apply hrank c.hash hcU
            rw [← hc_lookup]
            exact hp
          set pushed :=
            ((c.parents.filter (fun p => p ∉ proc)).map lookup).reverse
            with hpu
          have hpmem : ∀ x ∈ pushed,
              ∃ p ∈ c.parents, p ∉ proc ∧ x = lookup p := by
            intro x hx
            rw [hpu, List.mem_reverse] at hx
            rcases List.mem_map.1 hx with ⟨p, hp, rfl⟩
            rcases List.mem_filter.1 hp with ⟨hp1, hp2⟩
            exact ⟨p, hp1, by simpa using hp2, rfl⟩
          have hparpush : ∀ p ∈ c.parents, p ∉ proc → lookup p ∈ pushed := by
            intro p hp hnp
            rw [hpu, List.mem_reverse]
            exact List.mem_map.2
              ⟨p, List.mem_filter.2 ⟨hp, by simpa using hnp⟩, rfl⟩
          have hpushrank : ∀ x ∈ pushed, rank x.hash < rank c.hash := by
            intro x hx
            obtain ⟨p, hp, hnp, rfl⟩ := hpmem x hx
            rw [hhash p (hparU p hp)]
            exact hparrank p hp
          have hlenle : pushed.length ≤ (lookup c.hash).parents.length := by
            rw [hpu, List.length_reverse, List.length_map, ← hc_lookup]
            exact List.length_filter_le _ _
          have hgetL : ∀ (j : Nat) (hj : j < pushed.length)
              (h2 : j < (pushed ++ c :: rest).length),
              (pushed ++ c :: rest).get ⟨j, h2⟩ = pushed.get ⟨j, hj⟩ := by
            intro j hj h2
            simp [List.get_eq_getElem, List.getElem_append_left hj]
          have hgetR : ∀ (j : Nat) (hj : j < (c :: rest).length)
              (h2 : pushed.length + j < (pushed ++ c :: rest).length),
              (pushed ++ c :: rest).get ⟨pushed.length + j, h2⟩ =
                (c :: rest).get ⟨j, hj⟩ := by
            intro j hj h2
            simp only [List.get_eq_getElem]
            rw [List.getElem_append_right (by omega)]
            congr 1
            omega
          have hremove := filterSum_remove
            (fun h => 1 + (lookup h).parents.length) U hUnodup
            (fun a => decide (a ∉ seen ∧ a ∉ proc))
            (fun a => decide (a ∉ c.hash :: seen ∧ a ∉ proc))
            c.hash hcU
            (by
              simp only [decide_eq_true_eq]
              exact ⟨hcseen, hproc_c⟩)
            (by
              intro a
              by_cases hac : a = c.hash
              · subst hac
                simp
              · have hb : (a != c.hash) = true := bne_iff_ne.2 hac
                simp [List.mem_cons, hac, hb])
          have hphi' : fifoPhi lookup U
              ⟨pushed ++ c :: rest, proc, c.hash :: seen⟩ ≤ fuel := by
            dsimp only at hremove
            unfold fifoPhi at hphi ⊢
            dsimp only at hphi ⊢
            simp only [List.length_append, List.length_cons] at hphi ⊢
            omega
          obtain ⟨E, hrun, hp1, hp2, hp3, hp4⟩ :=
            ih ⟨pushed ++ c :: rest, proc, c.hash :: seen⟩ hphi'
              (by
                intro x hx
                rcases List.mem_append.1 hx with hx | hx
                · obtain ⟨p, hp, hnp, rfl⟩ := hpmem x hx
                  have hpU : p ∈ U := hparU p hp
                  have hph : (lookup p).hash = p := hhash p hpU
                  refine ⟨by rw [hph], by rw [hph]; exact hpU, ?_⟩
                  rw [hph]
                  exact Reachable.parent c.hash p hcReach
                    (by rw [← hc_lookup]; exact hp)
                · exact hstack x hx)
              hproc
              (by
                intro h hh
                rcases List.mem_cons.1 hh with rfl | hh
                · exact hcU
                · exact hseen h hh)
              hprocnd
              (List.nodup_cons.2 ⟨hcseen, hseennd⟩)
              hclosedP
              (by
                intro g hg hgproc
                rcases List.mem_cons.1 hg with rfl | hgseen
                · -- the commit just marked gray sits right below its parents
                  have hklt : pushed.length < (pushed ++ c :: rest).length := by
                    simp only [List.length_append, List.length_cons]
                    omega
                  have hgetk :
                      (pushed ++ c :: rest).get ⟨pushed.length, hklt⟩ = c := by
                    simp only [List.get_eq_getElem]
                    rw [List.getElem_append_right (le_refl _)]
                    simp
                  refine ⟨pushed.length, hklt, by rw [hgetk], ?_, ?_⟩
                  · intro j hj
                    rw [hgetL j hj (Nat.lt_trans hj hklt)]
                    exact hpushrank _ (List.get_mem pushed j hj)
                  · intro p hp
                    rw [← hc_lookup] at hp
                    by_cases hnp : p ∈ proc
                    · exact Or.inl hnp
                    · obtain ⟨⟨j, hjlt⟩, hjh⟩ :=
                        List.mem_iff_get.1 (hparpush p hp hnp)
                      refine Or.inr ⟨j, hjlt, ?_⟩
                      rw [hgetL j hjlt (Nat.lt_trans hjlt hklt), hjh]
                      exact hhash p (hparU p hp)
                · -- previously gray commits shift up by pushed.length
                  have hgne : g ≠ c.hash := fun he => hcseen (he ▸ hgseen)
                  obtain ⟨i, hi, hih, hirank, hipar⟩ := hshelf g hgseen hgproc
                  have hipos : 0 < i := by
                    rcases Nat.eq_zero_or_pos i with rfl | h2
                    · exfalso
                      simp only [List.get] at hih
                      exact hgne hih.symm
                    · exact h2
                  have hranklt : rank c.hash < rank g := by
                    have h0 := hirank 0 hipos
                    simpa using h0
                  have hi2 :
                      pushed.length + i < (pushed ++ c :: rest).length := by
                    simp only [List.length_cons] at hi
                    simp only [List.length_append, List.length_cons]
                    omega
                  refine ⟨pushed.length + i, hi2, ?_, ?_, ?_⟩
                  · rw [hgetR i hi hi2]
                    exact hih
                  · intro j hj
                    by_cases hjk : j < pushed.length
                    · rw [hgetL j hjk (Nat.lt_trans hj hi2)]
                      exact lt_trans
                        (hpushrank _ (List.get_mem pushed j hjk)) hranklt
                    · have hj2 : j - pushed.length < i := by omega
                      have hgoal : (pushed ++ c :: rest).get
                            ⟨j, Nat.lt_trans hj hi2⟩ =
                          (c :: rest).get
                            ⟨j - pushed.length, Nat.lt_trans hj2 hi⟩ := by
                        simp only [List.get_eq_getElem]
                        rw [List.getElem_append_right (by omega)]
                      rw [hgoal]
                      exact hirank (j - pushed.length) hj2
                  · intro p hp
                    rcases hipar p hp with hmem | ⟨j, hj, hjh⟩
                    · exact Or.inl hmem
                    · have hb : pushed.length + j <
                          (pushed ++ c :: rest).length := by
                        simp only [List.length_cons] at hi
                        simp only [List.length_append, List.length_cons]
                        omega
                      refine Or.inr ⟨pushed.length + j, by omega, ?_⟩
                      rw [hgetR j (Nat.lt_trans hj hi) hb]
                      exact hjh)
          refine ⟨E, ?_, hp1, hp2, ?_, hp4⟩
          · simp only [fifoRun]
            rw [if_neg hproc_c, if_neg hcond]
            rw [hpu] at hrun
            exact hrun
          · intro x hx
            exact hp3 x (List.mem_append.2 (Or.inr hx))

/-- C1: the FIFO commit iterator terminates, emits every reachable commit
exactly once, and parents are always emitted before their children. -/
theorem C1_commits_fifo_topological {H : Type} [DecidableEq H]
    (lookup : H → FCommit H) (roots U : List H) (rank : H → Nat)
    (hUnodup : U.Nodup)
    (hroots : ∀ r ∈ roots, r ∈ U)
    (hhash : ∀ h ∈ U, (lookup h).hash = h)
    (hclosed : ∀ h ∈ U, ∀ p ∈ (lookup h).parents, p ∈ U)
    (hrank : ∀ h ∈ U, ∀ p ∈ (lookup h).parents, rank p < rank h) :
    ∃ fuel E, fifoRun lookup fuel (fifoInit lookup roots) = some E ∧
      (E.map FCommit.hash).Nodup ∧
      (∀ h, Reachable lookup roots h ↔ h ∈ E.map FCommit.hash) ∧
      (∀ c ∈ E, c = lookup c.hash) ∧
      (∀ i (hi : i < E.length), ∀ p ∈ (E.get ⟨i, hi⟩).parents,
        ∃ j, ∃ hj : j < i, (E.get ⟨j, Nat.lt_trans hj hi⟩).hash = p) := by
  refine ⟨fifoPhi lookup U (fifoInit lookup roots), ?_⟩
  obtain ⟨E, hrun, hp1, hp2, hp3, hp4⟩ :=
    fifoAux lookup roots U rank hUnodup hhash hclosed hrank
      (fifoPhi lookup U (fifoInit lookup roots)) (fifoInit lookup roots)
      (le_refl _)
      (by
        intro x hx
        unfold fifoInit at hx
        dsimp only at hx
        rw [List.mem_reverse] at hx
        rcases List.mem_map.1 hx with ⟨r, hr, rfl⟩
        have hrU : r ∈ U := hroots r hr
        have hrh : (lookup r).hash = r := hhash r hrU
        refine ⟨by rw [hrh], by rw [hrh]; exact hrU, ?_⟩
        rw [hrh]
        exact Reachable.root r hr)
      (by intro h hh; simp [fifoInit] at hh)
      (by intro h hh; simp [fifoInit] at hh)
      (by simp [fifoInit])
      (by simp [fifoInit])
      (by intro h hh; simp [fifoInit] at hh)
      (by intro g hg; simp [fifoInit] at hg)
  refine ⟨E, hrun, hp2, ?_, ?_, ?_⟩
  · intro h
    constructor
    · intro hreach
      induction hreach with
      | root r hr =>
        have hmem : lookup r ∈ (fifoInit lookup roots).commits := by
          unfold fifoInit
          dsimp only
          rw [List.mem_reverse]
          exact List.mem_map.2 ⟨r, hr, rfl⟩
        rcases hp3 (lookup r) hmem with hm | hm
        · exact absurd hm (by simp [fifoInit])
        · rw [hhash r (hroots r hr)] at hm
          exact hm
      | parent h2 p2 hh2 hpar ih2 =>
        rcases List.mem_map.1 ih2 with ⟨c, hcE, hch⟩
        obtain ⟨⟨i, hi⟩, hieq⟩ := List.mem_iff_get.1 hcE
        have hc_eq : c = lookup c.hash := (hp1 c hcE).1
        have hpc : p2 ∈ (E.get ⟨i, hi⟩).parents := by
          rw [hieq, hc_eq, hch]
          exact hpar
        rcases hp4 i hi p2 hpc with hm | ⟨j, hj, hjh⟩
        · exact absurd hm (by simp [fifoInit])
        · rw [← hjh]
          exact List.mem_map.2
            ⟨E.get ⟨j, Nat.lt_trans hj hi⟩,
              List.get_mem E j (Nat.lt_trans hj hi), rfl⟩
    · intro hmem
      rcases List.mem_map.1 hmem with ⟨c, hcE, hch⟩
      rw [← hch]
      exact (hp1 c hcE).2.2.1
  · intro c hc
    exact (hp1 c hc).1
  · intro i hi p hp
    rcases hp4 i hi p hp with hm | hm
    · exact absurd hm (by simp [fifoInit])
    · exact hm

/-- The FIFO iterator on the concrete three-commit graph 0 → \x7b1, 2\x7d, 1 → 2. -/
theorem C1_commits_fifo_topological_witness :
    ∃ fuel E, fifoRun demoLookup fuel (fifoInit demoLookup [0]) = some E ∧
      (E.map FCommit.hash).Nodup ∧
      (∀ h, Reachable demoLookup [0] h ↔ h ∈ E.map FCommit.hash) ∧
      (∀ c ∈ E, c = demoLookup c.hash) ∧
      (∀ i (hi : i < E.length), ∀ p ∈ (E.get ⟨i, hi⟩).parents,
        ∃ j, ∃ hj : j < i, (E.get ⟨j, Nat.lt_trans hj hi⟩).hash = p) :=
  C1_commits_fifo_topological demoLookup [0] [0, 1, 2] (fun h => 3 - h)
    (by decide) (by decide) (by decide) (by decide) (by decide)

end Gitrw
